import Mathlib

/-!
Shallow embedding of the Wordle SolvRS constraint engine
(src/core.rs and src/solver.rs) and proofs about it.

Rust strings are modelled as lists of characters, HashSet of chars as a
duplicate-free list, HashMap as an association list with unique keys
(insert replaces in place).  Operations that can panic in Rust
(out-of-bounds indexing) are modelled as Option-returning functions,
with `none` standing for the panic.
-/

set_option maxHeartbeats 1000000

namespace WordleSolvRS

/-- A word: the sequence of characters of a Rust string. -/
abbrev Word := List Char

/-- Wordle feedback types (core.rs enum Feedback). -/
inductive Feedback where
  | Green
  | Yellow
  | Gray
  deriving DecidableEq, Repr

/-- Feedback.from_char (core.rs): Rust to_ascii_lowercase coincides with
Lean core Char.toLower (both lower exactly ASCII A-Z). -/
def Feedback.fromChar (c : Char) : Option Feedback :=
  if c.toLower = 'g' then some Feedback.Green
  else if c.toLower = 'y' then some Feedback.Yellow
  else if c.toLower = 'b' then some Feedback.Gray
  else none

example : Feedback.fromChar 'G' = some Feedback.Green := by decide
example : Feedback.fromChar 'x' = none := by decide

/-! ## Association list and set primitives

HashMap char→Nat is modelled as an association list with unique keys;
insertion replaces an existing entry in place.  HashSet char is a
duplicate-free list; insertion appends when absent. -/

/-- Lookup in an association list (HashMap get). -/
def alFind (m : List (Char × Nat)) (c : Char) : Option Nat :=
  match m with
  | [] => none
  | (k, v) :: rest => if k = c then some v else alFind rest c

/-- Insert or replace in an association list (HashMap insert). -/
def alInsert (m : List (Char × Nat)) (c : Char) (v : Nat) : List (Char × Nat) :=
  match m with
  | [] => [(c, v)]
  | (k, w) :: rest => if k = c then (c, v) :: rest else (k, w) :: alInsert rest c v

/-- Set insertion (HashSet insert): no-op when the element is present. -/
def setInsert (s : List Char) (c : Char) : List Char :=
  if c ∈ s then s else s ++ [c]

/-- The accumulated constraint state of the solver loop (solver.rs solve):
green positions, yellow (letter, position) pairs, gray letters, minimum
letter counts. -/
structure ConstraintState where
  green : List (Option Char)
  yellow : List (Char × Nat)
  gray : List Char
  minCounts : List (Char × Nat)
  deriving DecidableEq, Repr

/-- The state at game start: all-None greens, empty collections. -/
def emptyState : ConstraintState :=
  { green := [none, none, none, none, none], yellow := [], gray := [], minCounts := [] }

/-! ## Guess selection (core.rs select_guess) -/

/-- Number of distinct letters of a word (chars().collect::<HashSet>().len()). -/
def uniqueLetters (w : Word) : Nat := w.dedup.length

/-- The fixed vowel class used by the scoring heuristic. -/
def vowels : List Char := ['a', 'e', 'i', 'o', 'u', 'y']

/-- Number of distinct vowel-class letters of a word. -/
def uniqueVowels (w : Word) : Nat := (w.filter (fun c => c ∈ vowels)).dedup.length

/-- Heuristic score of a candidate word. -/
def score (w : Word) : Nat := uniqueLetters w + uniqueVowels w

/-- select_guess (core.rs): None on empty input; otherwise a fold keeping
the incumbent (word, score), replacing only on strictly larger score,
started at (first word, 0); returns the final word with the input length. -/
def selectGuess (candidates : List Word) : Option (Word × Nat) :=
  match candidates with
  | [] => none
  | c0 :: _ =>
    let best := candidates.foldl
      (fun b w => if score w > b.2 then (w, score w) else b) (c0, 0)
    some (best.1, candidates.length)

/-! ## Feedback application (core.rs apply_feedback)

The Rust function indexes feedback[index] and writes green[index]; both
panic when out of bounds, modelled as none. -/

/-- Write green[i] := some c, or none when i is out of bounds (array
index panic). -/
def setGreen (g : List (Option Char)) (i : Nat) (c : Char) : Option (List (Option Char)) :=
  if i < g.length then some (g.set i (some c)) else none

/-- Increment the per-round tally of a letter (entry(char).or_default() += 1). -/
def rcBump (rc : List (Char × Nat)) (c : Char) : List (Char × Nat) :=
  alInsert rc c ((alFind rc c).getD 0 + 1)

/-- The position scan of apply_feedback: for the guess character at index
i, match feedback[i] and update green / yellow / gray and the round
tally.  none models the indexing panics. -/
def applyLoop (s : ConstraintState) (rc : List (Char × Nat)) :
    List Char → Nat → List Feedback → Option (ConstraintState × List (Char × Nat))
  | [], _, _ => some (s, rc)
  | c :: rest, i, fb =>
    match fb[i]? with
    | none => none
    | some Feedback.Green =>
      match setGreen s.green i c with
      | none => none
      | some g => applyLoop { s with green := g } (rcBump rc c) rest (i + 1) fb
    | some Feedback.Yellow =>
      applyLoop { s with yellow := s.yellow ++ [(c, i)] } (rcBump rc c) rest (i + 1) fb
    | some Feedback.Gray =>
      applyLoop { s with gray := setInsert s.gray c } rc rest (i + 1) fb

/-- Merge one round tally entry into min_counts:
entry(char).or_default() then overwrite when count is larger, i.e. the
entry becomes max(previous or 0, count). -/
def mergeOne (m : List (Char × Nat)) (c : Char) (cnt : Nat) : List (Char × Nat) :=
  alInsert m c (max ((alFind m c).getD 0) cnt)

/-- Merge the whole round tally into min_counts. -/
def mergeMinCounts (m rc : List (Char × Nat)) : List (Char × Nat) :=
  rc.foldl (fun acc p => mergeOne acc p.1 p.2) m

/-- apply_feedback (core.rs): position scan, then merge of the round
tally into min_counts. -/
def applyFeedback (guess : Word) (fb : List Feedback) (s : ConstraintState) :
    Option ConstraintState :=
  match applyLoop s [] guess 0 fb with
  | none => none
  | some (s1, rc) => some { s1 with minCounts := mergeMinCounts s1.minCounts rc }

/-! ## Candidate filtering (core.rs filter_candidates) -/

/-- The Greens loop: for each set green position, compare the candidate
character there; candidate_chars[index] panics (none) out of bounds. -/
def checkGreens (w : Word) : List (Option Char) → Nat → Option Bool
  | [], _ => some true
  | none :: rest, i => checkGreens w rest (i + 1)
  | some r :: rest, i =>
    match w[i]? with
    | none => none
    | some c => if c ≠ r then some false else checkGreens w rest (i + 1)

/-- The Yellows loop: the candidate must not have the letter at the
recorded position and must contain it somewhere;
candidate_chars[position] panics (none) out of bounds. -/
def checkYellows (w : Word) : List (Char × Nat) → Option Bool
  | [] => some true
  | (yc, pos) :: rest =>
    match w[pos]? with
    | none => none
    | some c => if c = yc ∨ yc ∉ w then some false else checkYellows w rest

/-- The Grays loop: a gray letter with no min_counts entry must not occur. -/
def checkGrays (w : Word) (gray : List Char) (minCounts : List (Char × Nat)) : Bool :=
  gray.all (fun g => ¬((alFind minCounts g).isNone ∧ g ∈ w))

/-- The minimum-counts loop: each letter must occur at least its minimum. -/
def checkMins (w : Word) (minCounts : List (Char × Nat)) : Bool :=
  minCounts.all (fun p => p.2 ≤ w.count p.1)

/-- The filter predicate of filter_candidates for a single word, in the
evaluation order of the Rust closure. -/
def wordOk (s : ConstraintState) (w : Word) : Option Bool :=
  match checkGreens w s.green 0 with
  | none => none
  | some false => some false
  | some true =>
    match checkYellows w s.yellow with
    | none => none
    | some false => some false
    | some true => some (checkGrays w s.gray s.minCounts && checkMins w s.minCounts)

/-- filter_candidates (core.rs): keep the words whose predicate holds,
propagating a panic from any word. -/
def filterCandidates (words : List Word) (s : ConstraintState) : Option (List Word) :=
  match words with
  | [] => some []
  | w :: rest =>
    match wordOk s w with
    | none => none
    | some b =>
      match filterCandidates rest s with
      | none => none
      | some l => some (if b then w :: l else l)

/-! ## Oracle feedback (solver.rs generate_feedback) -/

/-- First pass over guess and answer in parallel: mark exact matches
Green and consume the answer character (set to none in the remaining
multiset); other positions are Gray with the answer character kept. -/
def pass1 : List Char → List Char → List Feedback × List (Option Char)
  | g :: gs, a :: rest =>
    let (r, rem) := pass1 gs rest
    if g = a then (Feedback.Green :: r, none :: rem)
    else (Feedback.Gray :: r, some a :: rem)
  | _, _ => ([], [])

/-- Find the first remaining occurrence of a character and consume it
(position(|c| c == Some(guess_char)) then set to None). -/
def consume (rem : List (Option Char)) (c : Char) : Option (List (Option Char)) :=
  match rem with
  | [] => none
  | x :: rest =>
    if x = some c then some (none :: rest)
    else
      match consume rest c with
      | some rest1 => some (x :: rest1)
      | none => none

/-- Second pass: positions still Gray become Yellow when the guess
character can be consumed from the remaining multiset. -/
def pass2 : List Char → List Feedback → List (Option Char) → List Feedback
  | [], _, _ => []
  | _ :: _, [], _ => []
  | g :: gs, f :: fs, rem =>
    if f = Feedback.Gray then
      match consume rem g with
      | some rem1 => Feedback.Yellow :: pass2 gs fs rem1
      | none => Feedback.Gray :: pass2 gs fs rem
    else f :: pass2 gs fs rem

/-- generate_feedback (solver.rs): two-pass feedback oracle. -/
def generateFeedback (guess answer : Word) : List Feedback :=
  let p := pass1 guess answer
  pass2 guess p.1 p.2

/-! ## History replay (solver.rs load_state) -/

/-- Split a character list at commas (str::split with delimiter comma):
always at least one piece, empty pieces preserved. -/
def splitComma : List Char → List (List Char)
  | [] => [[]]
  | c :: rest =>
    match splitComma rest with
    | [] => [[]]
    | e :: es => if c = ',' then [] :: e :: es else (c :: e) :: es

/-- Rust char::is_whitespace: the Unicode White_Space property
(U+0009 to U+000D, space, NEL, NBSP, ogham space mark, the U+2000 to
U+200A spaces, line and paragraph separators, narrow and medium
mathematical spaces, ideographic space). -/
def isRustWhitespace (c : Char) : Bool :=
  c.toNat = 0x9 || c.toNat = 0xA || c.toNat = 0xB || c.toNat = 0xC ||
  c.toNat = 0xD || c.toNat = 0x20 || c.toNat = 0x85 || c.toNat = 0xA0 ||
  c.toNat = 0x1680 || (0x2000 ≤ c.toNat && c.toNat ≤ 0x200A) ||
  c.toNat = 0x2028 || c.toNat = 0x2029 || c.toNat = 0x202F ||
  c.toNat = 0x205F || c.toNat = 0x3000

/-- Remove leading and trailing whitespace (str::trim, which strips the
Unicode White_Space characters). -/
def trimChars (l : List Char) : List Char :=
  ((l.dropWhile isRustWhitespace).reverse.dropWhile isRustWhitespace).reverse

/-- Number of UTF-8 bytes of a character: Rust str lengths and indices
count bytes. -/
def utf8Len (c : Char) : Nat :=
  if c.toNat < 0x80 then 1
  else if c.toNat < 0x800 then 2
  else if c.toNat < 0x10000 then 3
  else 4

/-- UTF-8 byte length of a string (Rust str::len). -/
def byteLen (l : List Char) : Nat := (l.map utf8Len).sum

/-- str::split_at at a byte index: none when the index is past the end
or not on a character boundary (split_at panics there). -/
def splitAtByte (n : Nat) (l : List Char) : Option (List Char × List Char) :=
  if n = 0 then some ([], l)
  else
    match l with
    | [] => none
    | c :: rest =>
      if utf8Len c ≤ n then
        match splitAtByte (n - utf8Len c) rest with
        | none => none
        | some p => some (c :: p.1, p.2)
      else none

/-- Parse the five feedback symbols of a history entry, failing on the
first unrecognized character. -/
def parseFeedback (l : List Char) : Option (List Feedback) :=
  match l with
  | [] => some []
  | c :: rest =>
    match Feedback.fromChar c with
    | none => none
    | some f =>
      match parseFeedback rest with
      | none => none
      | some fs => some (f :: fs)

/-- The feedback-parsing loop of load_state: write each recognized
symbol into the array at its index (feedback[index] = ..., a panic when
the index is out of bounds, modelled as none), stop with valid = false
on the first unrecognized symbol. -/
def feedbackLoop (arr : List Feedback) (i : Nat) : List Char → Option (List Feedback × Bool)
  | [] => some (arr, true)
  | c :: rest =>
    match Feedback.fromChar c with
    | none => some (arr, false)
    | some f =>
      if i < arr.length then feedbackLoop (arr.set i f) (i + 1) rest
      else none

/-- The trimmed comma-separated entries of a serialized history string. -/
def historyEntries (data : List Char) : List (List Char) :=
  (splitComma data).map trimChars

/-- A history entry is valid when it has exactly 10 bytes, splits at
byte 5, and its feedback half parses. -/
def isValidEntry (e : List Char) : Bool :=
  byteLen e = 10 &&
    match splitAtByte 5 e with
    | none => false
    | some p => (parseFeedback p.2).isSome

/-- The entry loop of load_state: skip entries of wrong byte length or
with an invalid feedback symbol, apply the rest in order, counting
applications; entry.split_at(5) off a character boundary is a panic
(none). -/
def loadEntries (entries : List (List Char)) (s : ConstraintState) (applied : Nat) :
    Option (ConstraintState × Nat) :=
  match entries with
  | [] => some (s, applied)
  | e :: rest =>
    if byteLen e = 10 then
      match splitAtByte 5 e with
      | none => none
      | some p =>
        match feedbackLoop (List.replicate 5 Feedback.Gray) 0 p.2 with
        | none => none
        | some (_, false) => loadEntries rest s applied
        | some (fb, true) =>
          match applyFeedback p.1 fb s with
          | none => none
          | some s1 => loadEntries rest s1 (applied + 1)
    else loadEntries rest s applied

/-- load_state (solver.rs): split the serialized history at commas, trim
each entry, replay the valid entries, and saturating-subtract the number
of applied entries from the remaining budget (Nat subtraction saturates). -/
def loadState (data : List Char) (s : ConstraintState) (remaining : Nat) :
    Option (ConstraintState × Nat) :=
  match loadEntries (historyEntries data) s 0 with
  | none => none
  | some (s1, applied) => some (s1, remaining - applied)

/-- Joining entries with a comma delimiter: the resume format of the
specification (entries separated by a single delimiter character). -/
def joinComma : List (List Char) → List Char
  | [] => []
  | [e] => e
  | e :: rest => e ++ ',' :: joinComma rest

/-- Folding apply_feedback directly over (guess, feedback) pairs, the way
the live solver loop (solver.rs solve) applies successive rounds. -/
def foldFeedback : List (Word × List Feedback) → ConstraintState → Option ConstraintState
  | [], s => some s
  | (g, f) :: rest, s =>
    match applyFeedback g f s with
    | none => none
    | some s1 => foldFeedback rest s1

/-! ## Theorems -/

/-- Char.toLower written out: ASCII uppercase shifts down by 32, all
other characters are unchanged. -/
theorem toLower_char (c : Char) :
    c.toLower = if 65 ≤ c.toNat ∧ c.toNat ≤ 90 then Char.ofNat (c.toNat + 32) else c := by
  unfold Char.toLower
  simp only [ge_iff_le]

/-- A character whose code is known is that character. -/
theorem char_eq_of_toNat (c : Char) (n : Nat) (h : c.toNat = n) : c = Char.ofNat n := by
  have h1 := Char.ofNat_toNat c
  rw [h] at h1
  exact h1.symm

/-- Char.toLower hits a non-uppercase target letter only from the letter
itself or its uppercase partner. -/
theorem toLower_ne_of_ne (c lo up : Char) (hno : c ≠ lo) (hnu : c ≠ up)
    (hdec : ∀ n, n < 91 → 65 ≤ n → (Char.ofNat (n + 32) = lo ↔ n = up.toNat)) :
    c.toLower ≠ lo := by
  rw [toLower_char]
  split
  · rename_i hc
    intro he
    have h71 := (hdec c.toNat (by omega) hc.1).mp he
    exact hnu ((char_eq_of_toNat c up.toNat h71).trans (Char.ofNat_toNat up))
  · exact hno

/-- Feedback.from_char yields no value on any character other than the
six recognized ones. -/
theorem fromChar_eq_none (c : Char)
    (h : c ∉ (['g', 'G', 'y', 'Y', 'b', 'B'] : List Char)) :
    Feedback.fromChar c = none := by
  simp only [List.mem_cons, not_or] at h
  obtain ⟨h1, h2, h3, h4, h5, h6⟩ := h
  have hg : c.toLower ≠ 'g' := toLower_ne_of_ne c 'g' 'G' h1 h2 (by decide)
  have hy : c.toLower ≠ 'y' := toLower_ne_of_ne c 'y' 'Y' h3 h4 (by decide)
  have hb : c.toLower ≠ 'b' := toLower_ne_of_ne c 'b' 'B' h5 h6.1 (by decide)
  unfold Feedback.fromChar
  simp [hg, hy, hb]

/-- Claim C8: Feedback.from_char maps, case-insensitively, exactly three
characters to a value: g/G to Green (Exact), y/Y to Yellow (Present),
b/B to Gray (Absent), and returns None for every other character. -/
theorem fromChar_exact_six :
    Feedback.fromChar 'g' = some Feedback.Green ∧
    Feedback.fromChar 'G' = some Feedback.Green ∧
    Feedback.fromChar 'y' = some Feedback.Yellow ∧
    Feedback.fromChar 'Y' = some Feedback.Yellow ∧
    Feedback.fromChar 'b' = some Feedback.Gray ∧
    Feedback.fromChar 'B' = some Feedback.Gray ∧
    ∀ c : Char, c ∉ (['g', 'G', 'y', 'Y', 'b', 'B'] : List Char) →
      Feedback.fromChar c = none :=
  ⟨by decide, by decide, by decide, by decide, by decide, by decide,
    fun c h => fromChar_eq_none c h⟩

/-- Witness for C8: the universal part of the theorem applied at the
concrete character x, with its hypothesis discharged by decide. -/
theorem fromChar_exact_six_witness : Feedback.fromChar 'x' = none :=
  fromChar_exact_six.2.2.2.2.2.2 'x' (by decide)

/-- Characterization of the select_guess fold: it either keeps the
incumbent (when nothing beats its score) or ends on the first element of
the list strictly beating the incumbent score and every other score. -/
theorem selectFold_spec (l : List Word) (b : Word) (sb : Nat) :
    (l.foldl (fun acc w => if score w > acc.2 then (w, score w) else acc) (b, sb) = (b, sb) ∧
      ∀ v ∈ l, score v ≤ sb) ∨
    (∃ (k : Nat) (w : Word), l[k]? = some w ∧
      l.foldl (fun acc w => if score w > acc.2 then (w, score w) else acc) (b, sb) =
        (w, score w) ∧
      sb < score w ∧ (∀ v ∈ l, score v ≤ score w) ∧
      (∀ (j : Nat) (v : Word), j < k → l[j]? = some v → score v < score w)) := by
  induction l generalizing b sb with
  | nil => exact Or.inl ⟨rfl, by simp⟩
  | cons x xs ih =>
    simp only [List.foldl_cons]
    by_cases hx : score x > sb
    · rw [if_pos hx]
      rcases ih x (score x) with ⟨heq, hle⟩ | ⟨k, w, hk, heq, hlt, hle, hstrict⟩
      · refine Or.inr ⟨0, x, by simp, heq, hx, ?_, ?_⟩
        · intro v hv
          rcases List.mem_cons.mp hv with hv | hv
          · simp [hv]
          · exact hle v hv
        · intro j v hj _
          omega
      · refine Or.inr ⟨k + 1, w, by simpa using hk, heq, lt_trans hx hlt, ?_, ?_⟩
        · intro v hv
          rcases List.mem_cons.mp hv with hv | hv
          · rw [hv]
            exact le_of_lt hlt
          · exact hle v hv
        · intro j v hj hjv
          match j with
          | 0 =>
            simp only [List.getElem?_cons_zero, Option.some.injEq] at hjv
            rw [← hjv]
            exact hlt
          | j + 1 =>
            exact hstrict j v (by omega) (by simpa using hjv)
    · rw [if_neg hx]
      push_neg at hx
      rcases ih b sb with ⟨heq, hle⟩ | ⟨k, w, hk, heq, hlt, hle, hstrict⟩
      · refine Or.inl ⟨heq, ?_⟩
        intro v hv
        rcases List.mem_cons.mp hv with hv | hv
        · rw [hv]
          exact hx
        · exact hle v hv
      · refine Or.inr ⟨k + 1, w, by simpa using hk, heq, hlt, ?_, ?_⟩
        · intro v hv
          rcases List.mem_cons.mp hv with hv | hv
          · rw [hv]
            exact le_of_lt (lt_of_le_of_lt hx hlt)
          · exact hle v hv
        · intro j v hj hjv
          match j with
          | 0 =>
            simp only [List.getElem?_cons_zero, Option.some.injEq] at hjv
            rw [← hjv]
            exact lt_of_le_of_lt hx hlt
          | j + 1 =>
            exact hstrict j v (by omega) (by simpa using hjv)

/-- Claim C4: select_guess returns None on the empty list, and on a
non-empty list returns Some (word, count) where count is the length of
the input and word is the first candidate attaining the maximal score
(distinct letters plus distinct vowel-class letters, vowels a e i o u y),
ties broken by first occurrence. -/
theorem selectGuess_spec (candidates : List Word) :
    (candidates = [] → selectGuess candidates = none) ∧
    (candidates ≠ [] →
      ∃ (k : Nat) (w : Word), candidates[k]? = some w ∧
        selectGuess candidates = some (w, candidates.length) ∧
        (∀ v ∈ candidates, score v ≤ score w) ∧
        (∀ (j : Nat) (v : Word), j < k → candidates[j]? = some v → score v < score w)) := by
  constructor
  · intro h
    rw [h]
    rfl
  · intro h
    match candidates with
    | [] => exact absurd rfl h
    | c0 :: rest =>
      rcases selectFold_spec (c0 :: rest) c0 0 with ⟨heq, hle⟩ | ⟨k, w, hk, heq, _, hle, hstrict⟩
      · refine ⟨0, c0, by simp, ?_, ?_, ?_⟩
        · show some (((c0 :: rest).foldl
            (fun acc w => if score w > acc.2 then (w, score w) else acc) (c0, 0)).1,
              (c0 :: rest).length) = _
          rw [heq]
        · intro v hv
          have h0 : score v ≤ 0 := hle v hv
          omega
        · intro j v hj _
          omega
      · refine ⟨k, w, hk, ?_, hle, hstrict⟩
        show some (((c0 :: rest).foldl
          (fun acc w => if score w > acc.2 then (w, score w) else acc) (c0, 0)).1,
            (c0 :: rest).length) = _
        rw [heq]

/-- Witness for C4: the theorem applied to a concrete candidate list
(and, through the first conjunct, to the empty list). -/
theorem selectGuess_spec_witness :
    selectGuess [] = none ∧
    ∃ (k : Nat) (w : Word),
      ([String.toList "crane", String.toList "slate", String.toList "audio"])[k]? = some w ∧
      selectGuess [String.toList "crane", String.toList "slate", String.toList "audio"] =
        some (w, 3) ∧
      (∀ v ∈ [String.toList "crane", String.toList "slate", String.toList "audio"],
        score v ≤ score w) ∧
      (∀ (j : Nat) (v : Word), j < k →
        ([String.toList "crane", String.toList "slate", String.toList "audio"])[j]? = some v →
          score v < score w) :=
  ⟨(selectGuess_spec []).1 rfl,
    (selectGuess_spec [String.toList "crane", String.toList "slate", String.toList "audio"]).2
      (by decide)⟩

/-- The four-word dictionary of the end-to-end scenario. -/
def c2Dict : List Word :=
  [String.toList "crane", String.toList "slate", String.toList "trace", String.toList "brace"]

/-- Claim C2 counterexample: with guess crane and answer trace, the
filtered candidates over the four-word dictionary are NOT exactly
[trace]: brace also satisfies every accumulated constraint (its letters
b and t were never constrained). -/
theorem crane_trace_filter_counterexample :
    (applyFeedback (String.toList "crane")
        (generateFeedback (String.toList "crane") (String.toList "trace")) emptyState).bind
      (fun s => filterCandidates c2Dict s) ≠ some [String.toList "trace"] := by
  decide

/-- Claim C2 (amended): generate_feedback on guess crane and answer
trace yields [Yellow, Green, Green, Gray, Green] (Present, Exact, Exact,
Absent, Exact), and after applying that feedback to the empty constraint
state, filter_candidates over the four-word dictionary returns exactly
[trace, brace] in dictionary order. -/
theorem crane_trace_end_to_end :
    generateFeedback (String.toList "crane") (String.toList "trace") =
      [Feedback.Yellow, Feedback.Green, Feedback.Green, Feedback.Gray, Feedback.Green] ∧
    (applyFeedback (String.toList "crane")
        (generateFeedback (String.toList "crane") (String.toList "trace")) emptyState).bind
      (fun s => filterCandidates c2Dict s) =
      some [String.toList "trace", String.toList "brace"] := by
  decide

/-! ## The filter predicate as the specification words it -/

/-- Deciding a property of the character under a doubly-optional value. -/
instance decForallSomeSome (o : Option (Option Char)) (P : Char → Prop) [DecidablePred P] :
    Decidable (∀ c : Char, o = some (some c) → P c) :=
  match o with
  | none => isTrue (by simp)
  | some none => isTrue (by simp)
  | some (some a) => decidable_of_iff (P a) (by simp)

/-- The four filtering conditions of §4.4 of the specification, stated
directly from its words. -/
def specKeep (s : ConstraintState) (w : Word) : Prop :=
  (∀ i : Nat, i < 5 → ∀ c : Char, s.green[i]? = some (some c) → w[i]? = some c) ∧
  (∀ p ∈ s.yellow, p.1 ∈ w ∧ w[p.2]? ≠ some p.1) ∧
  (∀ c ∈ s.gray, alFind s.minCounts c = none → c ∉ w) ∧
  (∀ p ∈ s.minCounts, p.2 ≤ w.count p.1)

instance decSpecKeep (s : ConstraintState) (w : Word) : Decidable (specKeep s w) := by
  unfold specKeep
  infer_instance

/-- The Greens loop never panics when the candidate is long enough, and
computes exactly the fixed-positions condition. -/
theorem checkGreens_eq (w : Word) (green : List (Option Char)) (i : Nat)
    (h : i + green.length ≤ w.length) :
    checkGreens w green i =
      some (decide (∀ j : Nat, j < green.length → ∀ c : Char,
        green[j]? = some (some c) → w[i + j]? = some c)) := by
  induction green generalizing i with
  | nil => simp [checkGreens]
  | cons hd rest ih =>
    match hd with
    | none =>
      have hrec := ih (i + 1) (by simp only [List.length_cons] at h; omega)
      rw [checkGreens, hrec]
      congr 1
      rw [decide_eq_decide]
      constructor
      · intro hp j hj c hc
        match j with
        | 0 => simp at hc
        | j + 1 =>
          have hidx : i + (j + 1) = (i + 1) + j := by omega
          rw [hidx]
          exact hp j (by simp only [List.length_cons] at hj; omega) c (by simpa using hc)
      · intro hp j hj c hc
        have hidx : (i + 1) + j = i + (j + 1) := by omega
        rw [hidx]
        exact hp (j + 1) (by simp only [List.length_cons]; omega) c (by simpa using hc)
    | some r =>
      have hi : i < w.length := by simp only [List.length_cons] at h; omega
      have hc0 : w[i]? = some w[i] := List.getElem?_eq_getElem hi
      rw [checkGreens, hc0]
      dsimp only
      by_cases hr : w[i] = r
      · rw [if_neg (by simp [hr])]
        have hrec := ih (i + 1) (by simp only [List.length_cons] at h; omega)
        rw [hrec]
        congr 1
        rw [decide_eq_decide]
        constructor
        · intro hp j hj c hc
          match j with
          | 0 =>
            simp only [List.getElem?_cons_zero, Option.some.injEq] at hc
            have : c = r := by
              cases hc
              rfl
            rw [this, Nat.add_zero, hc0, hr]
          | j + 1 =>
            have hidx : i + (j + 1) = (i + 1) + j := by omega
            rw [hidx]
            exact hp j (by simp only [List.length_cons] at hj; omega) c (by simpa using hc)
        · intro hp j hj c hc
          have hidx : (i + 1) + j = i + (j + 1) := by omega
          rw [hidx]
          exact hp (j + 1) (by simp only [List.length_cons]; omega) c (by simpa using hc)
      · rw [if_pos (by simp [hr])]
        congr 1
        have : ¬(∀ j : Nat, j < (some r :: rest).length → ∀ c : Char,
            (some r :: rest)[j]? = some (some c) → w[i + j]? = some c) := by
          intro hp
          have := hp 0 (by simp) r (by simp)
          rw [Nat.add_zero, hc0] at this
          exact hr (by simpa using this)
        exact (decide_eq_false this).symm

/-- The Yellows loop never panics when every recorded position is in
bounds, and computes exactly the misplaced-pairs condition. -/
theorem checkYellows_eq (w : Word) (ys : List (Char × Nat))
    (h : ∀ p ∈ ys, p.2 < w.length) :
    checkYellows w ys = some (decide (∀ p ∈ ys, p.1 ∈ w ∧ w[p.2]? ≠ some p.1)) := by
  induction ys with
  | nil => simp [checkYellows]
  | cons hd rest ih =>
    obtain ⟨yc, pos⟩ := hd
    have hpos : pos < w.length := h (yc, pos) (by simp)
    have hc0 : w[pos]? = some w[pos] := List.getElem?_eq_getElem hpos
    rw [checkYellows, hc0]
    dsimp only
    by_cases hbad : w[pos] = yc ∨ yc ∉ w
    · rw [if_pos hbad]
      have hnot : ¬(∀ p ∈ (yc, pos) :: rest, p.1 ∈ w ∧ w[p.2]? ≠ some p.1) := by
        intro hp
        have := hp (yc, pos) (by simp)
        rcases hbad with hbad | hbad
        · exact this.2 (by rw [hc0, hbad])
        · exact hbad this.1
      exact congrArg some (decide_eq_false hnot).symm
    · rw [if_neg hbad]
      push_neg at hbad
      rw [ih (fun p hp => h p (List.mem_cons_of_mem _ hp))]
      congr 1
      rw [decide_eq_decide]
      constructor
      · intro hp p hp2
        rcases List.mem_cons.mp hp2 with hp2 | hp2
        · rw [hp2]
          exact ⟨hbad.2, by rw [hc0]; simpa using hbad.1⟩
        · exact hp p hp2
      · intro hp p hp2
        exact hp p (List.mem_cons_of_mem _ hp2)

/-- The Grays loop computes exactly the plain-exclusion condition. -/
theorem checkGrays_eq (w : Word) (gray : List Char) (mc : List (Char × Nat)) :
    checkGrays w gray mc = decide (∀ c ∈ gray, alFind mc c = none → c ∉ w) := by
  induction gray with
  | nil => simp [checkGrays]
  | cons hd rest ih =>
    rw [checkGrays, List.all_cons]
    rw [checkGrays] at ih
    rw [ih]
    rcases Bool.eq_false_or_eq_true (decide (¬((alFind mc hd).isNone ∧ hd ∈ w))) with hb | hb
    swap
    · rw [hb, Bool.false_and]
      have hyes : (alFind mc hd).isNone ∧ hd ∈ w := by
        have := of_decide_eq_false hb
        exact not_not.mp (by simpa using this)
      have hnot : ¬(∀ c ∈ hd :: rest, alFind mc c = none → c ∉ w) := by
        intro hp
        exact hp hd (by simp) (Option.isNone_iff_eq_none.mp hyes.1) hyes.2
      exact (decide_eq_false hnot).symm
    · rw [hb, Bool.true_and]
      have hok := of_decide_eq_true hb
      rw [decide_eq_decide]
      constructor
      · intro hp c hc
        rcases List.mem_cons.mp hc with hc | hc
        · intro hfind hmem
          rw [hc] at hfind hmem
          exact hok ⟨Option.isNone_iff_eq_none.mpr hfind, hmem⟩
        · exact hp c hc
      · intro hp c hc
        exact hp c (List.mem_cons_of_mem _ hc)

/-- The minimum-counts loop computes exactly the minimum-count condition. -/
theorem checkMins_eq (w : Word) (mc : List (Char × Nat)) :
    checkMins w mc = decide (∀ p ∈ mc, p.2 ≤ w.count p.1) := by
  unfold checkMins
  rcases Bool.eq_false_or_eq_true (mc.all (fun p => p.2 ≤ w.count p.1)) with hb | hb
  swap
  · rw [hb]
    have := List.all_eq_true.not.mp (by rw [hb]; simp)
    push_neg at this
    obtain ⟨p, hp, hnp⟩ := this
    have hnot : ¬(∀ p ∈ mc, p.2 ≤ w.count p.1) := by
      intro hall
      exact hnp (by simpa using hall p hp)
    exact (decide_eq_false hnot).symm
  · rw [hb]
    have hall := List.all_eq_true.mp hb
    have : ∀ p ∈ mc, p.2 ≤ w.count p.1 := fun p hp => by simpa using hall p hp
    exact (decide_eq_true this).symm

/-- The per-word predicate of filter_candidates never panics under the
well-formedness preconditions and decides exactly the specification
predicate. -/
theorem wordOk_eq (s : ConstraintState) (w : Word)
    (hw : w.length = 5) (hg : s.green.length = 5) (hy : ∀ p ∈ s.yellow, p.2 < 5) :
    wordOk s w = some (decide (specKeep s w)) := by
  have hG := checkGreens_eq w s.green 0 (by omega)
  have hY := checkYellows_eq w s.yellow (fun p hp => by rw [hw]; exact hy p hp)
  rw [wordOk, hG]
  by_cases hPG : ∀ j : Nat, j < s.green.length → ∀ c : Char,
      s.green[j]? = some (some c) → w[0 + j]? = some c
  · rw [decide_eq_true hPG]
    rw [hY]
    by_cases hPY : ∀ p ∈ s.yellow, p.1 ∈ w ∧ w[p.2]? ≠ some p.1
    · rw [decide_eq_true hPY]
      dsimp only
      rw [checkGrays_eq, checkMins_eq]
      have hiff : specKeep s w ↔
          ((∀ c ∈ s.gray, alFind s.minCounts c = none → c ∉ w) ∧
            (∀ p ∈ s.minCounts, p.2 ≤ w.count p.1)) := by
        unfold specKeep
        constructor
        · intro hk
          exact ⟨hk.2.2.1, hk.2.2.2⟩
        · intro hk
          refine ⟨?_, hPY, hk.1, hk.2⟩
          intro i hi c hc
          have := hPG i (by omega) c hc
          simpa using this
      exact congrArg some (((Bool.decide_and _ _).symm).trans (decide_eq_decide.mpr hiff.symm))
    · rw [decide_eq_false hPY]
      dsimp only
      have hnot : ¬specKeep s w := fun hk => hPY hk.2.1
      rw [decide_eq_false hnot]
  · rw [decide_eq_false hPG]
    dsimp only
    have hnot : ¬specKeep s w := by
      intro hk
      exact hPG (fun j hj c hc => by
        have := hk.1 j (by omega) c hc
        simpa using this)
    rw [decide_eq_false hnot]

/-- filter_candidates with a pointwise-evaluated predicate is List.filter. -/
theorem filterCandidates_eq (words : List Word) (s : ConstraintState)
    (h : ∀ v ∈ words, wordOk s v = some (decide (specKeep s v))) :
    filterCandidates words s = some (words.filter (fun v => decide (specKeep s v))) := by
  induction words with
  | nil => rfl
  | cons w rest ih =>
    rw [filterCandidates, h w (by simp), ih (fun v hv => h v (List.mem_cons_of_mem _ hv))]
    rw [List.filter_cons]

/-- Claim C1: for every dictionary and well-formed constraint state,
filter_candidates returns (without panicking) the order-preserving
subsequence of the dictionary consisting of exactly the words that
satisfy the four specification conditions: fixed letters match,
misplaced letters occur but not at their recorded positions, excluded
letters without a minimum-count entry are absent, and minimum letter
counts are met. -/
theorem filterCandidates_spec (words : List Word) (s : ConstraintState)
    (hw : ∀ w ∈ words, w.length = 5) (hg : s.green.length = 5)
    (hy : ∀ p ∈ s.yellow, p.2 < 5) :
    filterCandidates words s = some (words.filter (fun v => decide (specKeep s v))) ∧
    List.Sublist (words.filter (fun v => decide (specKeep s v))) words ∧
    ∀ w : Word, w ∈ words.filter (fun v => decide (specKeep s v)) ↔
      w ∈ words ∧ specKeep s w := by
  refine ⟨filterCandidates_eq words s
    (fun v hv => wordOk_eq s v (hw v hv) hg hy), List.filter_sublist _, ?_⟩
  intro w
  rw [List.mem_filter]
  simp

/-- Witness for C1 at a concrete dictionary and the constraint state of
the crane/trace round. -/
theorem filterCandidates_spec_witness :
    filterCandidates c2Dict
        { green := [none, some 'r', some 'a', none, some 'e'], yellow := [('c', 0)],
          gray := ['n'], minCounts := [('c', 1), ('r', 1), ('a', 1), ('e', 1)] } =
      some (c2Dict.filter (fun v => decide (specKeep
        { green := [none, some 'r', some 'a', none, some 'e'], yellow := [('c', 0)],
          gray := ['n'], minCounts := [('c', 1), ('r', 1), ('a', 1), ('e', 1)] } v))) ∧
    List.Sublist (c2Dict.filter (fun v => decide (specKeep
      { green := [none, some 'r', some 'a', none, some 'e'], yellow := [('c', 0)],
        gray := ['n'], minCounts := [('c', 1), ('r', 1), ('a', 1), ('e', 1)] } v))) c2Dict ∧
    ∀ w : Word, w ∈ c2Dict.filter (fun v => decide (specKeep
        { green := [none, some 'r', some 'a', none, some 'e'], yellow := [('c', 0)],
          gray := ['n'], minCounts := [('c', 1), ('r', 1), ('a', 1), ('e', 1)] } v)) ↔
      w ∈ c2Dict ∧ specKeep
        { green := [none, some 'r', some 'a', none, some 'e'], yellow := [('c', 0)],
          gray := ['n'], minCounts := [('c', 1), ('r', 1), ('a', 1), ('e', 1)] } w :=
  filterCandidates_spec c2Dict _ (by decide) (by decide) (by decide)

/-! ## Componentwise description of the position scan -/

/-- The green array produced by one position scan. -/
def greenUpd (g : List (Option Char)) : List Char → Nat → List Feedback → List (Option Char)
  | [], _, _ => g
  | c :: rest, i, fb =>
    if fb[i]? = some Feedback.Green then greenUpd (g.set i (some c)) rest (i + 1) fb
    else greenUpd g rest (i + 1) fb

/-- The yellow pairs appended by one position scan. -/
def yellowsOf : List Char → Nat → List Feedback → List (Char × Nat)
  | [], _, _ => []
  | c :: rest, i, fb =>
    (if fb[i]? = some Feedback.Yellow then [(c, i)] else []) ++ yellowsOf rest (i + 1) fb

/-- The gray set produced by one position scan. -/
def grayUpd (gr : List Char) : List Char → Nat → List Feedback → List Char
  | [], _, _ => gr
  | c :: rest, i, fb =>
    if fb[i]? = some Feedback.Gray then grayUpd (setInsert gr c) rest (i + 1) fb
    else grayUpd gr rest (i + 1) fb

/-- The round tally produced by one position scan. -/
def rcUpd (rc : List (Char × Nat)) : List Char → Nat → List Feedback → List (Char × Nat)
  | [], _, _ => rc
  | c :: rest, i, fb =>
    if fb[i]? = some Feedback.Green ∨ fb[i]? = some Feedback.Yellow then
      rcUpd (rcBump rc c) rest (i + 1) fb
    else rcUpd rc rest (i + 1) fb

/-- The position scan never panics in bounds and acts independently on
the four state components. -/
theorem applyLoop_eq (guess : List Char) (i : Nat) (fb : List Feedback)
    (s : ConstraintState) (rc : List (Char × Nat))
    (h1 : i + guess.length ≤ fb.length) (h2 : i + guess.length ≤ s.green.length) :
    applyLoop s rc guess i fb =
      some ({ green := greenUpd s.green guess i fb,
              yellow := s.yellow ++ yellowsOf guess i fb,
              gray := grayUpd s.gray guess i fb,
              minCounts := s.minCounts },
            rcUpd rc guess i fb) := by
  induction guess generalizing s rc i with
  | nil => simp [applyLoop, greenUpd, yellowsOf, grayUpd, rcUpd]
  | cons c rest ih =>
    have hi1 : i < fb.length := by simp only [List.length_cons] at h1; omega
    have hi2 : i < s.green.length := by simp only [List.length_cons] at h2; omega
    have hfb : fb[i]? = some fb[i] := List.getElem?_eq_getElem hi1
    rw [applyLoop, hfb]
    rw [greenUpd, yellowsOf, grayUpd, rcUpd]
    have hr1 : i + 1 + rest.length ≤ fb.length := by
      simp only [List.length_cons] at h1
      omega
    cases hf : fb[i] with
    | Green =>
      rw [hf] at hfb
      dsimp only
      rw [setGreen, if_pos hi2]
      dsimp only
      rw [ih (i + 1) _ _ hr1 (by
        simp only [List.length_set]
        simp only [List.length_cons] at h2
        omega)]
      rw [if_pos hfb, if_neg (by rw [hfb]; intro hcon; cases hcon),
        if_neg (by rw [hfb]; intro hcon; cases hcon), if_pos (Or.inl hfb)]
      simp
    | Yellow =>
      rw [hf] at hfb
      dsimp only
      rw [ih (i + 1) { s with yellow := s.yellow ++ [(c, i)] } (rcBump rc c) hr1
        (show i + 1 + rest.length ≤ s.green.length by
          simp only [List.length_cons] at h2
          omega)]
      rw [if_neg (by rw [hfb]; intro hcon; cases hcon), if_pos hfb,
        if_neg (by rw [hfb]; intro hcon; cases hcon), if_pos (Or.inr hfb)]
      simp
    | Gray =>
      rw [hf] at hfb
      dsimp only
      rw [ih (i + 1) { s with gray := setInsert s.gray c } rc hr1
        (show i + 1 + rest.length ≤ s.green.length by
          simp only [List.length_cons] at h2
          omega)]
      rw [if_neg (by rw [hfb]; intro hcon; cases hcon),
        if_neg (by rw [hfb]; intro hcon; cases hcon),
        if_pos hfb,
        if_neg (by rw [hfb]; intro hcon; rcases hcon with hcon | hcon <;> cases hcon)]
      simp

/-- apply_feedback written componentwise: greens set, yellows appended,
grays inserted, and the round tally merged into min_counts. -/
theorem applyFeedback_eq (guess : Word) (fb : List Feedback) (s : ConstraintState)
    (h1 : guess.length ≤ fb.length) (h2 : guess.length ≤ s.green.length) :
    applyFeedback guess fb s =
      some { green := greenUpd s.green guess 0 fb,
             yellow := s.yellow ++ yellowsOf guess 0 fb,
             gray := grayUpd s.gray guess 0 fb,
             minCounts := mergeMinCounts s.minCounts (rcUpd [] guess 0 fb) } := by
  rw [applyFeedback, applyLoop_eq guess 0 fb s [] (by omega) (by omega)]

/-- Claim C9: under the well-formedness preconditions (guess and every
dictionary word of length 5, every misplaced position below 5, and the
length-5 green array), apply_feedback and filter_candidates never reach
an out-of-bounds branch: both return some value. -/
theorem engine_total (guess : Word) (fb : List Feedback) (s : ConstraintState)
    (words : List Word)
    (hg5 : guess.length = 5) (hf5 : fb.length = 5) (hgr : s.green.length = 5)
    (hy : ∀ p ∈ s.yellow, p.2 < 5) (hw : ∀ w ∈ words, w.length = 5) :
    (applyFeedback guess fb s).isSome ∧ (filterCandidates words s).isSome := by
  constructor
  · rw [applyFeedback_eq guess fb s (by omega) (by omega)]
    rfl
  · rw [filterCandidates_eq words s (fun v hv => wordOk_eq s v (hw v hv) hgr hy)]
    rfl

/-- Witness for C9 at the crane/trace round state and four-word dictionary. -/
theorem engine_total_witness :
    (applyFeedback (String.toList "slate")
        [Feedback.Gray, Feedback.Yellow, Feedback.Green, Feedback.Gray, Feedback.Green]
        { green := [none, some 'r', some 'a', none, some 'e'], yellow := [('c', 0)],
          gray := ['n'], minCounts := [('c', 1), ('r', 1), ('a', 1), ('e', 1)] }).isSome ∧
    (filterCandidates c2Dict
        { green := [none, some 'r', some 'a', none, some 'e'], yellow := [('c', 0)],
          gray := ['n'], minCounts := [('c', 1), ('r', 1), ('a', 1), ('e', 1)] }).isSome :=
  engine_total (String.toList "slate")
    [Feedback.Gray, Feedback.Yellow, Feedback.Green, Feedback.Gray, Feedback.Green]
    _ c2Dict (by decide) (by decide) (by decide) (by decide) (by decide)

/-! ## Idempotence support lemmas -/

theorem alFind_alInsert_self (m : List (Char × Nat)) (c : Char) (v : Nat) :
    alFind (alInsert m c v) c = some v := by
  induction m with
  | nil => simp [alInsert, alFind]
  | cons p rest ih =>
    obtain ⟨k, w⟩ := p
    rw [alInsert]
    by_cases hk : k = c
    · rw [if_pos hk, alFind, if_pos rfl]
    · rw [if_neg hk, alFind, if_neg hk, ih]

theorem alFind_alInsert_ne (m : List (Char × Nat)) (c k : Char) (v : Nat) (h : k ≠ c) :
    alFind (alInsert m c v) k = alFind m k := by
  have hck : ¬(c = k) := fun hc => h hc.symm
  induction m with
  | nil =>
    rw [alInsert]
    show (if c = k then some v else alFind [] k) = alFind [] k
    rw [if_neg hck]
  | cons p rest ih =>
    obtain ⟨k2, w⟩ := p
    rw [alInsert]
    by_cases hk : k2 = c
    · rw [if_pos hk]
      show (if c = k then some v else alFind rest k) =
        if k2 = k then some w else alFind rest k
      rw [if_neg hck, if_neg (by rw [hk]; exact hck)]
    · rw [if_neg hk]
      show (if k2 = k then some w else alFind (alInsert rest c v) k) =
        if k2 = k then some w else alFind rest k
      rw [ih]

theorem alInsert_find_self (m : List (Char × Nat)) (c : Char) (v : Nat)
    (h : alFind m c = some v) : alInsert m c v = m := by
  induction m with
  | nil => simp [alFind] at h
  | cons p rest ih =>
    obtain ⟨k, w⟩ := p
    rw [alFind] at h
    rw [alInsert]
    by_cases hk : k = c
    · rw [if_pos hk] at h
      rw [if_pos hk, hk]
      cases h
      rfl
    · rw [if_neg hk] at h
      rw [if_neg hk, ih h]

/-- Merging a round tally never decreases an existing entry. -/
theorem merge_find_mono (rc m : List (Char × Nat)) (k : Char) (v : Nat)
    (h : alFind m k = some v) :
    ∃ u, v ≤ u ∧ alFind (mergeMinCounts m rc) k = some u := by
  induction rc generalizing m v with
  | nil => exact ⟨v, le_refl v, h⟩
  | cons p rest ih =>
    rw [mergeMinCounts, List.foldl_cons]
    by_cases hk : p.1 = k
    · have hfind : alFind (mergeOne m p.1 p.2) k = some (max ((alFind m p.1).getD 0) p.2) := by
        rw [mergeOne, hk, alFind_alInsert_self]
      have hle : v ≤ max ((alFind m p.1).getD 0) p.2 := by
        rw [hk, h]
        simp only [Option.getD_some]
        omega
      obtain ⟨u, hu1, hu2⟩ := ih (mergeOne m p.1 p.2) _ hfind
      exact ⟨u, le_trans hle hu1, hu2⟩
    · have hfind : alFind (mergeOne m p.1 p.2) k = some v := by
        rw [mergeOne, alFind_alInsert_ne _ _ _ _ (fun hc => hk hc.symm), h]
      obtain ⟨u, hu1, hu2⟩ := ih (mergeOne m p.1 p.2) v hfind
      exact ⟨u, hu1, hu2⟩

/-- After a merge, every tally entry is dominated by the stored minimum. -/
theorem merge_find_ge (rc m : List (Char × Nat)) :
    ∀ p ∈ rc, ∃ u, p.2 ≤ u ∧ alFind (mergeMinCounts m rc) p.1 = some u := by
  induction rc generalizing m with
  | nil => intro p hp; cases hp
  | cons q rest ih =>
    intro p hp
    rw [mergeMinCounts, List.foldl_cons]
    rcases List.mem_cons.mp hp with hp | hp
    · have hfind : alFind (mergeOne m q.1 q.2) q.1 = some (max ((alFind m q.1).getD 0) q.2) :=
        by rw [mergeOne, alFind_alInsert_self]
      obtain ⟨u, hu1, hu2⟩ := merge_find_mono rest (mergeOne m q.1 q.2) q.1 _ hfind
      refine ⟨u, ?_, by rw [hp]; exact hu2⟩
      have : q.2 ≤ max ((alFind m q.1).getD 0) q.2 := le_max_right _ _
      rw [hp]
      exact le_trans this hu1
    · exact ih (mergeOne m q.1 q.2) p hp

/-- Merging a tally that is already dominated is the identity. -/
theorem mergeMinCounts_eq_self (rc m : List (Char × Nat))
    (h : ∀ p ∈ rc, ∃ u, p.2 ≤ u ∧ alFind m p.1 = some u) :
    mergeMinCounts m rc = m := by
  induction rc with
  | nil => rfl
  | cons q rest ih =>
    obtain ⟨u, hu1, hu2⟩ := h q (by simp)
    have hone : mergeOne m q.1 q.2 = m := by
      rw [mergeOne, hu2]
      simp only [Option.getD_some]
      rw [max_eq_left hu1]
      exact alInsert_find_self m q.1 u hu2
    rw [mergeMinCounts, List.foldl_cons, hone]
    exact ih (fun p hp => h p (List.mem_cons_of_mem _ hp))

/-- Setting a position below the scan start commutes with the scan. -/
theorem greenUpd_set_comm (guess : List Char) (i : Nat) (fb : List Feedback)
    (g : List (Option Char)) (j : Nat) (v : Option Char) (hj : j < i) :
    (greenUpd g guess i fb).set j v = greenUpd (g.set j v) guess i fb := by
  induction guess generalizing g i with
  | nil => rw [greenUpd, greenUpd]
  | cons c rest ih =>
    rw [greenUpd, greenUpd]
    by_cases hG : fb[i]? = some Feedback.Green
    · rw [if_pos hG, if_pos hG, ih (i + 1) _ (by omega),
        List.set_comm _ _ _ (by omega : j ≠ i)]
    · rw [if_neg hG, if_neg hG, ih (i + 1) _ (by omega)]

/-- Scanning the same greens twice equals scanning them once. -/
theorem greenUpd_idem (guess : List Char) (i : Nat) (fb : List Feedback)
    (g : List (Option Char)) :
    greenUpd (greenUpd g guess i fb) guess i fb = greenUpd g guess i fb := by
  induction guess generalizing g i with
  | nil => rw [greenUpd]
  | cons c rest ih =>
    by_cases hG : fb[i]? = some Feedback.Green
    · have h1 : greenUpd g (c :: rest) i fb =
          greenUpd (g.set i (some c)) rest (i + 1) fb := by
        rw [greenUpd, if_pos hG]
      rw [h1, greenUpd, if_pos hG,
        greenUpd_set_comm rest (i + 1) fb (g.set i (some c)) i (some c) (by omega),
        List.set_set]
      exact ih (i + 1) (g.set i (some c))
    · have h1 : greenUpd g (c :: rest) i fb = greenUpd g rest (i + 1) fb := by
        rw [greenUpd, if_neg hG]
      rw [h1, greenUpd, if_neg hG]
      exact ih (i + 1) g

theorem mem_setInsert_of_mem (s : List Char) (c x : Char) (h : x ∈ s) :
    x ∈ setInsert s c := by
  rw [setInsert]
  split
  · exact h
  · exact List.mem_append_left _ h

theorem mem_setInsert_self (s : List Char) (c : Char) : c ∈ setInsert s c := by
  rw [setInsert]
  split
  · assumption
  · exact List.mem_append_right _ (by simp)

theorem setInsert_eq_self (s : List Char) (c : Char) (h : c ∈ s) : setInsert s c = s := by
  rw [setInsert, if_pos h]

theorem mem_grayUpd_of_mem (guess : List Char) (i : Nat) (fb : List Feedback)
    (gr : List Char) (x : Char) (h : x ∈ gr) : x ∈ grayUpd gr guess i fb := by
  induction guess generalizing gr i with
  | nil => exact h
  | cons c rest ih =>
    rw [grayUpd]
    split
    · exact ih (i + 1) _ (mem_setInsert_of_mem gr c x h)
    · exact ih (i + 1) _ h

theorem grayUpd_marked_mem (guess : List Char) (i : Nat) (fb : List Feedback)
    (gr : List Char) (j : Nat) (c : Char)
    (hj : guess[j]? = some c) (hf : fb[i + j]? = some Feedback.Gray) :
    c ∈ grayUpd gr guess i fb := by
  induction guess generalizing gr i j with
  | nil => cases hj
  | cons g0 rest ih =>
    match j with
    | 0 =>
      simp only [List.getElem?_cons_zero, Option.some.injEq] at hj
      rw [Nat.add_zero] at hf
      rw [grayUpd, if_pos hf, hj]
      exact mem_grayUpd_of_mem rest (i + 1) fb _ c (mem_setInsert_self gr c)
    | j + 1 =>
      have hf2 : fb[(i + 1) + j]? = some Feedback.Gray := by
        rw [show (i + 1) + j = i + (j + 1) by omega]
        exact hf
      rw [grayUpd]
      split
      · exact ih (i + 1) _ j (by simpa using hj) hf2
      · exact ih (i + 1) _ j (by simpa using hj) hf2

theorem grayUpd_eq_self (guess : List Char) (i : Nat) (fb : List Feedback)
    (gr : List Char)
    (h : ∀ (j : Nat) (c : Char), guess[j]? = some c →
      fb[i + j]? = some Feedback.Gray → c ∈ gr) :
    grayUpd gr guess i fb = gr := by
  induction guess generalizing gr i with
  | nil => rw [grayUpd]
  | cons g0 rest ih =>
    rw [grayUpd]
    have hshift : ∀ (j : Nat) (c : Char), rest[j]? = some c →
        fb[(i + 1) + j]? = some Feedback.Gray → c ∈ gr := by
      intro j c hj hf
      exact h (j + 1) c (by simpa using hj)
        (by rw [show i + (j + 1) = (i + 1) + j by omega]; exact hf)
    split
    · rename_i hG
      rw [setInsert_eq_self gr g0 (h 0 g0 (by simp) (by rw [Nat.add_zero]; exact hG))]
      exact ih (i + 1) gr hshift
    · exact ih (i + 1) gr hshift

/-- Idempotence of the gray scan. -/
theorem grayUpd_idem (guess : List Char) (i : Nat) (fb : List Feedback) (gr : List Char) :
    grayUpd (grayUpd gr guess i fb) guess i fb = grayUpd gr guess i fb :=
  grayUpd_eq_self guess i fb _
    (fun j c hj hf => grayUpd_marked_mem guess i fb gr j c hj hf)

/-- The green scan preserves the array length. -/
theorem greenUpd_length (guess : List Char) (i : Nat) (fb : List Feedback)
    (g : List (Option Char)) : (greenUpd g guess i fb).length = g.length := by
  induction guess generalizing g i with
  | nil => rw [greenUpd]
  | cons c rest ih =>
    rw [greenUpd]
    split
    · rw [ih (i + 1)]
      simp
    · exact ih (i + 1) g

/-- Every yellow pair appended in one round records a scan position. -/
theorem yellowsOf_pos_bound (guess : List Char) (i : Nat) (fb : List Feedback) :
    ∀ p ∈ yellowsOf guess i fb, i ≤ p.2 ∧ p.2 < i + guess.length := by
  induction guess generalizing i with
  | nil => intro p hp; cases hp
  | cons c rest ih =>
    intro p hp
    rw [yellowsOf] at hp
    rcases List.mem_append.mp hp with hp | hp
    · split at hp
      · simp only [List.mem_singleton] at hp
        rw [hp]
        simp only [List.length_cons]
        omega
      · cases hp
    · have := ih (i + 1) p hp
      simp only [List.length_cons]
      omega

/-- Duplicated misplaced entries do not change the filtering predicate. -/
theorem specKeep_dup_yellow (g : List (Option Char)) (y1 y2 : List (Char × Nat))
    (gr : List Char) (mc : List (Char × Nat)) (w : Word) :
    specKeep ⟨g, (y1 ++ y2) ++ y2, gr, mc⟩ w ↔ specKeep ⟨g, y1 ++ y2, gr, mc⟩ w := by
  unfold specKeep
  dsimp only
  constructor
  · intro h
    refine ⟨h.1, ?_, h.2.2.1, h.2.2.2⟩
    intro p hp
    exact h.2.1 p (List.mem_append_left _ hp)
  · intro h
    refine ⟨h.1, ?_, h.2.2.1, h.2.2.2⟩
    intro p hp
    rcases List.mem_append.mp hp with hp | hp
    · exact h.2.1 p hp
    · exact h.2.1 p (List.mem_append_right _ hp)

/-- Claim C5: applying the same (guess, feedback) pair twice yields the
same fixed (green) array, the same gray set and the same minCounts map
as applying it once, and filtering any dictionary under the
twice-applied state gives exactly the same candidate list; only the
misplaced multiset grows, harmlessly, by duplicate entries. -/
theorem applyFeedback_filter_idempotent (guess : Word) (fb : List Feedback)
    (s : ConstraintState) (words : List Word)
    (hg5 : guess.length = 5) (hf5 : fb.length = 5) (hgr : s.green.length = 5)
    (hy : ∀ p ∈ s.yellow, p.2 < 5) (hw : ∀ w ∈ words, w.length = 5) :
    ∃ s1 s2, applyFeedback guess fb s = some s1 ∧ applyFeedback guess fb s1 = some s2 ∧
      s2.green = s1.green ∧ s2.minCounts = s1.minCounts ∧ s2.gray = s1.gray ∧
      filterCandidates words s2 = filterCandidates words s1 := by
  have h1 := applyFeedback_eq guess fb s (by omega) (by omega)
  have h2 := applyFeedback_eq guess fb
    { green := greenUpd s.green guess 0 fb, yellow := s.yellow ++ yellowsOf guess 0 fb,
      gray := grayUpd s.gray guess 0 fb,
      minCounts := mergeMinCounts s.minCounts (rcUpd [] guess 0 fb) }
    (by omega)
    (show List.length guess ≤ (greenUpd s.green guess 0 fb).length by
      rw [greenUpd_length]
      omega)
  refine ⟨_, _, h1, h2, ?_, ?_, ?_, ?_⟩
  · dsimp only
    exact greenUpd_idem guess 0 fb s.green
  · dsimp only
    exact mergeMinCounts_eq_self (rcUpd [] guess 0 fb) _
      (merge_find_ge (rcUpd [] guess 0 fb) s.minCounts)
  · dsimp only
    exact grayUpd_idem guess 0 fb s.gray
  · have hyY : ∀ p ∈ s.yellow ++ yellowsOf guess 0 fb, p.2 < 5 := by
      intro p hp
      rcases List.mem_append.mp hp with hp | hp
      · exact hy p hp
      · have := yellowsOf_pos_bound guess 0 fb p hp
        omega
    have hyYY : ∀ p ∈ (s.yellow ++ yellowsOf guess 0 fb) ++ yellowsOf guess 0 fb,
        p.2 < 5 := by
      intro p hp
      rcases List.mem_append.mp hp with hp | hp
      · exact hyY p hp
      · have := yellowsOf_pos_bound guess 0 fb p hp
        omega
    have hgr2 : (greenUpd (greenUpd s.green guess 0 fb) guess 0 fb).length = 5 := by
      rw [greenUpd_length, greenUpd_length]
      exact hgr
    rw [filterCandidates_eq words _ (fun v hv => wordOk_eq _ v (hw v hv) hgr2 hyYY)]
    rw [filterCandidates_eq words _ (fun v hv => wordOk_eq _ v (hw v hv)
      (by dsimp only; rw [greenUpd_length]; exact hgr) hyY)]
    congr 1
    apply List.filter_congr
    intro v hv
    apply decide_eq_decide.mpr
    rw [greenUpd_idem guess 0 fb s.green, grayUpd_idem guess 0 fb s.gray,
      mergeMinCounts_eq_self (rcUpd [] guess 0 fb) _
        (merge_find_ge (rcUpd [] guess 0 fb) s.minCounts)]
    exact specKeep_dup_yellow (greenUpd s.green guess 0 fb) s.yellow
      (yellowsOf guess 0 fb) (grayUpd s.gray guess 0 fb)
      (mergeMinCounts s.minCounts (rcUpd [] guess 0 fb)) v

/-- Witness for C5 at the crane round applied to the empty state and
the four-word dictionary. -/
theorem applyFeedback_filter_idempotent_witness :
    ∃ s1 s2,
      applyFeedback (String.toList "crane")
        [Feedback.Yellow, Feedback.Green, Feedback.Green, Feedback.Gray, Feedback.Green]
        emptyState = some s1 ∧
      applyFeedback (String.toList "crane")
        [Feedback.Yellow, Feedback.Green, Feedback.Green, Feedback.Gray, Feedback.Green]
        s1 = some s2 ∧
      s2.green = s1.green ∧ s2.minCounts = s1.minCounts ∧ s2.gray = s1.gray ∧
      filterCandidates c2Dict s2 = filterCandidates c2Dict s1 :=
  applyFeedback_filter_idempotent (String.toList "crane")
    [Feedback.Yellow, Feedback.Green, Feedback.Green, Feedback.Gray, Feedback.Green]
    emptyState c2Dict (by decide) (by decide) (by decide) (by decide) (by decide)

/-! ## Counting marks of the feedback oracle -/

/-- Number of positions where the guess letter is c and the feedback is
Green or Yellow (Exact or Present). -/
def ygCount (c : Char) : List Char → List Feedback → Nat
  | g :: gs, f :: fs => (if g = c ∧ f ≠ Feedback.Gray then 1 else 0) + ygCount c gs fs
  | _, _ => 0

/-- Number of positions where the guess letter is c and the feedback is
Green. -/
def greenCount (c : Char) : List Char → List Feedback → Nat
  | g :: gs, f :: fs => (if g = c ∧ f = Feedback.Green then 1 else 0) + greenCount c gs fs
  | _, _ => 0

/-- Number of positions where the guess letter is c and the feedback is
Gray. -/
def grayCount (c : Char) : List Char → List Feedback → Nat
  | g :: gs, f :: fs => (if g = c ∧ f = Feedback.Gray then 1 else 0) + grayCount c gs fs
  | _, _ => 0

/-- Number of positions where guess and answer both hold the letter c. -/
def matchCount (c : Char) : List Char → List Char → Nat
  | g :: gs, a :: rest => (if g = c ∧ a = c then 1 else 0) + matchCount c gs rest
  | _, _ => 0

theorem consume_eq_none_iff (rem : List (Option Char)) (c : Char) :
    consume rem c = none ↔ some c ∉ rem := by
  induction rem with
  | nil => simp [consume]
  | cons x rest ih =>
    rw [consume]
    by_cases hx : x = some c
    · rw [if_pos hx]
      simp [hx]
    · rw [if_neg hx]
      match hcr : consume rest c with
      | some rest1 =>
        simp only [reduceCtorEq, false_iff, not_not]
        have : ¬(some c ∉ rest) := by
          rw [← ih]
          simp [hcr]
        exact List.mem_cons_of_mem _ (not_not.mp this)
      | none =>
        simp only [true_iff]
        intro hmem
        rcases List.mem_cons.mp hmem with hmem | hmem
        · exact hx hmem.symm
        · exact (ih.mp hcr) hmem

theorem consume_count (rem : List (Option Char)) (c : Char) (rem1 : List (Option Char))
    (h : consume rem c = some rem1) :
    rem1.count (some c) + 1 = rem.count (some c) ∧
    ∀ d : Char, d ≠ c → rem1.count (some d) = rem.count (some d) := by
  induction rem generalizing rem1 with
  | nil => cases h
  | cons x rest ih =>
    rw [consume] at h
    by_cases hx : x = some c
    · rw [if_pos hx] at h
      cases h
      constructor
      · rw [hx]
        simp [List.count_cons]
      · intro d hd
        rw [hx]
        simp [List.count_cons, Ne.symm hd]
    · rw [if_neg hx] at h
      match hcr : consume rest c with
      | none => rw [hcr] at h; cases h
      | some rest1 =>
        rw [hcr] at h
        cases h
        obtain ⟨ih1, ih2⟩ := ih rest1 hcr
        constructor
        · simp only [List.count_cons]
          omega
        · intro d hd
          simp only [List.count_cons, ih2 d hd]

/-- pass2 preserves Green marks exactly. -/
theorem pass2_green_iff (gs : List Char) (fs : List Feedback) (rem : List (Option Char))
    (h : fs.length = gs.length) (i : Nat) :
    (pass2 gs fs rem)[i]? = some Feedback.Green ↔ fs[i]? = some Feedback.Green := by
  induction gs generalizing fs rem i with
  | nil =>
    match fs with
    | [] => rw [pass2]
    | f :: fs2 => simp at h
  | cons g gs2 ih =>
    match fs with
    | [] => simp at h
    | f :: fs2 =>
      rw [pass2]
      by_cases hf : f = Feedback.Gray
      · rw [if_pos hf]
        match hcr : consume rem g with
        | some rem1 =>
          match i with
          | 0 =>
            rw [hf]
            simp
          | i + 1 =>
            simp only [List.getElem?_cons_succ]
            exact ih fs2 rem1 (by simpa using h) i
        | none =>
          match i with
          | 0 =>
            rw [hf]
            simp
          | i + 1 =>
            simp only [List.getElem?_cons_succ]
            exact ih fs2 rem (by simpa using h) i
      · rw [if_neg hf]
        match i with
        | 0 => simp
        | i + 1 =>
          simp only [List.getElem?_cons_succ]
          exact ih fs2 rem (by simpa using h) i

/-- The second pass marks, per letter, exactly the prior Greens plus as
many Yellows as the remaining multiset allows. -/
theorem pass2_ygCount (c : Char) (gs : List Char) (fs : List Feedback)
    (rem : List (Option Char)) (h : fs.length = gs.length)
    (hnoY : ∀ f ∈ fs, f ≠ Feedback.Yellow) :
    ygCount c gs (pass2 gs fs rem) =
      greenCount c gs fs + min (grayCount c gs fs) (rem.count (some c)) := by
  induction gs generalizing fs rem with
  | nil =>
    match fs with
    | [] =>
      rw [pass2]
      show (0 : Nat) = 0 + min 0 (List.count (some c) rem)
      simp
    | f :: fs2 => simp at h
  | cons g gs2 ih =>
    match fs with
    | [] => simp at h
    | f :: fs2 =>
      have hlen2 : fs2.length = gs2.length := by simpa using h
      have hnoY2 : ∀ x ∈ fs2, x ≠ Feedback.Yellow :=
        fun x hx => hnoY x (List.mem_cons_of_mem _ hx)
      rw [pass2]
      by_cases hf : f = Feedback.Gray
      · subst hf
        rw [if_pos rfl]
        match hcr : consume rem g with
        | some rem1 =>
          obtain ⟨hc1, hc2⟩ := consume_count rem g rem1 hcr
          rw [ygCount, greenCount, grayCount, ih fs2 rem1 hlen2 hnoY2]
          by_cases hg : g = c
          · have hcnt : rem1.count (some c) + 1 = rem.count (some c) := by
              rw [← hg]
              exact hc1
            simp only [hg, true_and]
            simp only [ne_eq, reduceCtorEq, not_false_eq_true, if_true, if_false]
            omega
          · have hcnt : rem1.count (some c) = rem.count (some c) :=
              hc2 c (fun hcc => hg hcc.symm)
            rw [if_neg (fun hcon => hg hcon.1), if_neg (fun hcon => hg hcon.1),
              if_neg (fun hcon => hg hcon.1), hcnt]
            omega
        | none =>
          rw [ygCount, greenCount, grayCount, ih fs2 rem hlen2 hnoY2]
          by_cases hg : g = c
          · have hmem : some c ∉ rem := by
              rw [← hg]
              exact (consume_eq_none_iff rem g).mp hcr
            have hcnt : rem.count (some c) = 0 := List.count_eq_zero.mpr hmem
            rw [if_neg (by simp), if_neg (by simp), if_pos ⟨hg, rfl⟩, hcnt]
            omega
          · rw [if_neg (fun hcon => hg hcon.1), if_neg (fun hcon => hg hcon.1),
              if_neg (fun hcon => hg hcon.1)]
            omega
      · have hfG : f = Feedback.Green := by
          have := hnoY f (by simp)
          cases f
          · rfl
          · exact absurd rfl this
          · exact absurd rfl hf
        subst hfG
        rw [if_neg (by simp), ygCount, greenCount, grayCount, ih fs2 rem hlen2 hnoY2]
        by_cases hg : g = c
        · rw [if_pos ⟨hg, by simp⟩, if_pos ⟨hg, rfl⟩, if_neg (by simp)]
          omega
        · rw [if_neg (fun hcon => hg hcon.1), if_neg (fun hcon => hg hcon.1),
            if_neg (fun hcon => hg hcon.1)]
          omega

theorem pass1_fb_length (guess answer : List Char) (h : answer.length = guess.length) :
    (pass1 guess answer).1.length = guess.length := by
  induction guess generalizing answer with
  | nil =>
    match answer with
    | [] => rfl
    | a :: rest => simp at h
  | cons g gs ih =>
    match answer with
    | [] => simp at h
    | a :: rest =>
      rcases hpr : pass1 gs rest with ⟨r, rem⟩
      rw [pass1, hpr]
      dsimp only
      have hr : r.length = gs.length := by
        have := ih rest (by simpa using h)
        rw [hpr] at this
        exact this
      by_cases hga : g = a
      · rw [if_pos hga]
        simp [hr]
      · rw [if_neg hga]
        simp [hr]

theorem pass1_no_yellow (guess answer : List Char) :
    ∀ f ∈ (pass1 guess answer).1, f ≠ Feedback.Yellow := by
  induction guess generalizing answer with
  | nil =>
    match answer with
    | [] => intro f hf; cases hf
    | a :: rest => intro f hf; cases hf
  | cons g gs ih =>
    match answer with
    | [] => intro f hf; cases hf
    | a :: rest =>
      rcases hpr : pass1 gs rest with ⟨r, rem⟩
      rw [pass1, hpr]
      dsimp only
      have htail := ih rest
      rw [hpr] at htail
      dsimp only at htail
      by_cases hga : g = a
      · rw [if_pos hga]
        intro f hf
        rcases List.mem_cons.mp hf with hf | hf
        · rw [hf]; intro hcon; cases hcon
        · exact htail f hf
      · rw [if_neg hga]
        intro f hf
        rcases List.mem_cons.mp hf with hf | hf
        · rw [hf]; intro hcon; cases hcon
        · exact htail f hf

theorem pass1_greenCount (c : Char) (guess answer : List Char) :
    greenCount c guess (pass1 guess answer).1 = matchCount c guess answer := by
  induction guess generalizing answer with
  | nil =>
    match answer with
    | [] => rfl
    | a :: rest => rfl
  | cons g gs ih =>
    match answer with
    | [] => rfl
    | a :: rest =>
      rcases hpr : pass1 gs rest with ⟨r, rem⟩
      rw [pass1, hpr]
      dsimp only
      have htail := ih rest
      rw [hpr] at htail
      dsimp only at htail
      by_cases hga : g = a
      · rw [if_pos hga]
        show (if g = c ∧ Feedback.Green = Feedback.Green then 1 else 0) + greenCount c gs r =
          (if g = c ∧ a = c then 1 else 0) + matchCount c gs rest
        rw [htail]
        congr 1
        by_cases hg : g = c
        · rw [if_pos ⟨hg, rfl⟩, if_pos ⟨hg, by rw [← hga]; exact hg⟩]
        · rw [if_neg (fun hcon => hg hcon.1), if_neg (fun hcon => hg hcon.1)]
      · rw [if_neg hga]
        show (if g = c ∧ Feedback.Gray = Feedback.Green then 1 else 0) + greenCount c gs r =
          (if g = c ∧ a = c then 1 else 0) + matchCount c gs rest
        rw [htail]
        congr 1
        rw [if_neg (by intro hcon; cases hcon.2),
          if_neg (by intro hcon; exact hga (hcon.1.trans hcon.2.symm))]

theorem pass1_grayCount (c : Char) (guess answer : List Char)
    (h : answer.length = guess.length) :
    grayCount c guess (pass1 guess answer).1 + matchCount c guess answer =
      guess.count c := by
  induction guess generalizing answer with
  | nil =>
    match answer with
    | [] => rfl
    | a :: rest => simp at h
  | cons g gs ih =>
    match answer with
    | [] => simp at h
    | a :: rest =>
      rcases hpr : pass1 gs rest with ⟨r, rem⟩
      rw [pass1, hpr]
      dsimp only
      have htail := ih rest (by simpa using h)
      rw [hpr] at htail
      dsimp only at htail
      have hcnt : (g :: gs).count c = (if g = c then 1 else 0) + gs.count c := by
        simp [List.count_cons]
        by_cases hg : g = c
        · simp [hg]
          omega
        · simp [hg]
      rw [hcnt]
      by_cases hga : g = a
      · rw [if_pos hga]
        show (if g = c ∧ Feedback.Green = Feedback.Gray then 1 else 0) + grayCount c gs r +
            ((if g = c ∧ a = c then 1 else 0) + matchCount c gs rest) = _
        rw [if_neg (show ¬(g = c ∧ Feedback.Green = Feedback.Gray) by
          intro hcon; cases hcon.2)]
        by_cases hg : g = c
        · rw [if_pos (show g = c ∧ a = c from ⟨hg, by rw [← hga]; exact hg⟩),
            if_pos hg]
          omega
        · rw [if_neg (show ¬(g = c ∧ a = c) from fun hcon => hg hcon.1), if_neg hg]
          omega
      · rw [if_neg hga]
        show (if g = c ∧ Feedback.Gray = Feedback.Gray then 1 else 0) + grayCount c gs r +
            ((if g = c ∧ a = c then 1 else 0) + matchCount c gs rest) = _
        by_cases hg : g = c
        · rw [if_pos (show g = c ∧ Feedback.Gray = Feedback.Gray from ⟨hg, rfl⟩),
            if_neg (show ¬(g = c ∧ a = c) from
              fun hcon => hga (hcon.1.trans hcon.2.symm)),
            if_pos hg]
          omega
        · rw [if_neg (show ¬(g = c ∧ Feedback.Gray = Feedback.Gray) from
              fun hcon => hg hcon.1),
            if_neg (show ¬(g = c ∧ a = c) from fun hcon => hg hcon.1), if_neg hg]
          omega

theorem pass1_remCount (c : Char) (guess answer : List Char)
    (h : answer.length = guess.length) :
    (pass1 guess answer).2.count (some c) + matchCount c guess answer =
      answer.count c := by
  induction guess generalizing answer with
  | nil =>
    match answer with
    | [] => rfl
    | a :: rest => simp at h
  | cons g gs ih =>
    match answer with
    | [] => simp at h
    | a :: rest =>
      rcases hpr : pass1 gs rest with ⟨r, rem⟩
      rw [pass1, hpr]
      dsimp only
      have htail := ih rest (by simpa using h)
      rw [hpr] at htail
      dsimp only at htail
      have hcnt : (a :: rest).count c = (if a = c then 1 else 0) + rest.count c := by
        simp [List.count_cons]
        by_cases ha : a = c
        · simp [ha]
          omega
        · simp [ha]
      rw [hcnt]
      by_cases hga : g = a
      · rw [if_pos hga]
        show (none :: rem).count (some c) +
          ((if g = c ∧ a = c then 1 else 0) + matchCount c gs rest) = _
        have hnone : (none :: rem).count (some c) = rem.count (some c) := by
          simp [List.count_cons]
        rw [hnone]
        by_cases hg : g = c
        · rw [if_pos ⟨hg, by rw [← hga]; exact hg⟩, if_pos (by rw [← hga]; exact hg)]
          omega
        · rw [if_neg (fun hcon => hg hcon.1), if_neg (by rw [← hga]; exact hg)]
          omega
      · rw [if_neg hga]
        show (some a :: rem).count (some c) +
          ((if g = c ∧ a = c then 1 else 0) + matchCount c gs rest) = _
        rw [if_neg (by intro hcon; exact hga (hcon.1.trans hcon.2.symm))]
        by_cases ha : a = c
        · have hsome : (some a :: rem).count (some c) = rem.count (some c) + 1 := by
            simp [List.count_cons, ha]
          rw [hsome, if_pos ha]
          omega
        · have hsome : (some a :: rem).count (some c) = rem.count (some c) := by
            simp [List.count_cons, ha]
          rw [hsome, if_neg ha]
          omega

theorem pass1_green_iff (guess answer : List Char) (h : answer.length = guess.length)
    (i : Nat) (hi : i < guess.length) :
    (pass1 guess answer).1[i]? = some Feedback.Green ↔ guess[i]? = answer[i]? := by
  induction guess generalizing answer i with
  | nil => simp at hi
  | cons g gs ih =>
    match answer with
    | [] => simp at h
    | a :: rest =>
      rcases hpr : pass1 gs rest with ⟨r, rem⟩
      rw [pass1, hpr]
      dsimp only
      match i with
      | 0 =>
        by_cases hga : g = a
        · rw [if_pos hga]
          simp [hga]
        · rw [if_neg hga]
          simp only [List.getElem?_cons_zero, Option.some.injEq]
          constructor
          · intro hcon
            cases hcon
          · intro hcon
            exact absurd hcon hga
      | i + 1 =>
        have htail := ih rest (by simpa using h) i (by simpa using hi)
        rw [hpr] at htail
        dsimp only at htail
        by_cases hga : g = a
        · rw [if_pos hga]
          simpa using htail
        · rw [if_neg hga]
          simpa using htail

/-- Claim C3: generate_feedback marks position i Exact (Green) iff the
guess and answer agree there, and for every letter the number of Green
or Yellow marks at positions holding that letter equals the minimum of
its occurrence counts in guess and answer (so excess repetitions are
marked Absent, never Present); guessing reads against answer reads is
all-Exact. -/
theorem generateFeedback_spec (guess answer : Word)
    (hg : guess.length = 5) (ha : answer.length = 5) :
    (∀ i : Nat, i < 5 →
      ((generateFeedback guess answer)[i]? = some Feedback.Green ↔
        guess[i]? = answer[i]?)) ∧
    (∀ c : Char, ygCount c guess (generateFeedback guess answer) =
      min (guess.count c) (answer.count c)) ∧
    generateFeedback (String.toList "reads") (String.toList "reads") =
      [Feedback.Green, Feedback.Green, Feedback.Green, Feedback.Green,
        Feedback.Green] := by
  have hlen : answer.length = guess.length := by omega
  have hfb := pass1_fb_length guess answer hlen
  rcases hpr : pass1 guess answer with ⟨r, rem⟩
  rw [hpr] at hfb
  dsimp only at hfb
  have hgen : generateFeedback guess answer = pass2 guess r rem := by
    rw [generateFeedback, hpr]
  have hnoY : ∀ f ∈ r, f ≠ Feedback.Yellow := by
    have := pass1_no_yellow guess answer
    rw [hpr] at this
    exact this
  refine ⟨?_, ?_, by decide⟩
  · intro i hi
    rw [hgen, pass2_green_iff guess r rem (by omega) i]
    have := pass1_green_iff guess answer hlen i (by omega)
    rw [hpr] at this
    exact this
  · intro c
    rw [hgen, pass2_ygCount c guess r rem (by omega) hnoY]
    have h1 := pass1_greenCount c guess answer
    have h2 := pass1_grayCount c guess answer hlen
    have h3 := pass1_remCount c guess answer hlen
    rw [hpr] at h1 h2 h3
    dsimp only at h1 h2 h3
    rw [h1]
    omega

/-- Witness for C3 at the allee/eagle repeated-letter example. -/
theorem generateFeedback_spec_witness :
    (∀ i : Nat, i < 5 →
      ((generateFeedback (String.toList "allee") (String.toList "eagle"))[i]? =
          some Feedback.Green ↔
        (String.toList "allee")[i]? = (String.toList "eagle")[i]?)) ∧
    (∀ c : Char, ygCount c (String.toList "allee")
        (generateFeedback (String.toList "allee") (String.toList "eagle")) =
      min ((String.toList "allee").count c) ((String.toList "eagle").count c)) ∧
    generateFeedback (String.toList "reads") (String.toList "reads") =
      [Feedback.Green, Feedback.Green, Feedback.Green, Feedback.Green,
        Feedback.Green] :=
  generateFeedback_spec (String.toList "allee") (String.toList "eagle")
    (by decide) (by decide)

/-! ## History replay lemmas -/

theorem parseFeedback_length (l : List Char) (fb : List Feedback)
    (h : parseFeedback l = some fb) : fb.length = l.length := by
  induction l generalizing fb with
  | nil =>
    rw [parseFeedback] at h
    cases h
    rfl
  | cons c rest ih =>
    rw [parseFeedback] at h
    match hc : Feedback.fromChar c with
    | none => rw [hc] at h; cases h
    | some f =>
      rw [hc] at h
      match hr : parseFeedback rest with
      | none => rw [hr] at h; cases h
      | some fs =>
        rw [hr] at h
        cases h
        simp [ih fs hr]

theorem parseFeedback_chars (l : List Char) (fb : List Feedback)
    (h : parseFeedback l = some fb) : ∀ c ∈ l, (Feedback.fromChar c).isSome := by
  induction l generalizing fb with
  | nil => intro c hc; cases hc
  | cons c0 rest ih =>
    rw [parseFeedback] at h
    match hc : Feedback.fromChar c0 with
    | none => rw [hc] at h; cases h
    | some f =>
      rw [hc] at h
      match hr : parseFeedback rest with
      | none => rw [hr] at h; cases h
      | some fs =>
        intro c hmem
        rcases List.mem_cons.mp hmem with hmem | hmem
        · rw [hmem, hc]; rfl
        · exact ih fs hr c hmem

/-- A recognized feedback symbol is one of the six literal characters. -/
theorem fromChar_isSome_mem (c : Char) (h : (Feedback.fromChar c).isSome) :
    c ∈ (['g', 'G', 'y', 'Y', 'b', 'B'] : List Char) := by
  by_contra hmem
  rw [fromChar_eq_none c hmem] at h
  cases h

/-- A recognized feedback symbol is a single-byte (ASCII) character
that is neither Unicode whitespace nor a comma. -/
theorem fromChar_char_props (c : Char) (h : (Feedback.fromChar c).isSome) :
    isRustWhitespace c = false ∧ c ≠ ',' ∧ c.toNat < 128 := by
  have hmem := fromChar_isSome_mem c h
  simp only [List.mem_cons, List.not_mem_nil, or_false] at hmem
  rcases hmem with h1 | h1 | h1 | h1 | h1 | h1 <;> rw [h1] <;>
    exact ⟨by decide, by decide, by decide⟩

/-- applyFeedback keeps the green array length (in bounds). -/
theorem applyFeedback_green_length (guess : Word) (fb : List Feedback)
    (s s1 : ConstraintState) (h1 : guess.length ≤ fb.length)
    (h2 : guess.length ≤ s.green.length)
    (h : applyFeedback guess fb s = some s1) : s1.green.length = s.green.length := by
  rw [applyFeedback_eq guess fb s h1 h2] at h
  cases h
  exact greenUpd_length guess 0 fb s.green

/-! ## Byte-length lemmas -/

theorem one_le_utf8Len (c : Char) : 1 ≤ utf8Len c := by
  rw [utf8Len]
  split
  · omega
  · split
    · omega
    · split
      · omega
      · omega

theorem utf8Len_ascii (c : Char) (h : c.toNat < 128) : utf8Len c = 1 := by
  rw [utf8Len, if_pos h]

theorem byteLen_nil : byteLen [] = 0 := rfl

theorem byteLen_cons (c : Char) (l : List Char) :
    byteLen (c :: l) = utf8Len c + byteLen l := by
  rw [byteLen, byteLen, List.map_cons, List.sum_cons]

theorem byteLen_append (l1 l2 : List Char) :
    byteLen (l1 ++ l2) = byteLen l1 + byteLen l2 := by
  rw [byteLen, byteLen, byteLen, List.map_append, List.sum_append]

theorem length_le_byteLen (l : List Char) : l.length ≤ byteLen l := by
  induction l with
  | nil => exact Nat.le_refl 0
  | cons c rest ih =>
    rw [byteLen_cons, List.length_cons]
    have := one_le_utf8Len c
    omega

theorem byteLen_ascii (l : List Char) (h : ∀ c ∈ l, c.toNat < 128) :
    byteLen l = l.length := by
  induction l with
  | nil => rfl
  | cons c rest ih =>
    rw [byteLen_cons, List.length_cons, utf8Len_ascii c (h c (by simp)),
      ih (fun x hx => h x (List.mem_cons_of_mem _ hx))]
    omega

/-- When split_at succeeds it splits the string at the requested number
of bytes. -/
theorem splitAtByte_spec (l : List Char) (n : Nat) (p : List Char × List Char)
    (h : splitAtByte n l = some p) : p.1 ++ p.2 = l ∧ byteLen p.1 = n := by
  induction l generalizing n p with
  | nil =>
    rw [splitAtByte] at h
    by_cases hn : n = 0
    · rw [if_pos hn] at h
      cases h
      exact ⟨rfl, hn.symm⟩
    · rw [if_neg hn] at h
      cases h
  | cons c rest ih =>
    rw [splitAtByte] at h
    by_cases hn : n = 0
    · rw [if_pos hn] at h
      cases h
      exact ⟨rfl, hn.symm⟩
    · rw [if_neg hn] at h
      by_cases hle : utf8Len c ≤ n
      · rw [if_pos hle] at h
        match hr : splitAtByte (n - utf8Len c) rest with
        | none => rw [hr] at h; cases h
        | some q =>
          rw [hr] at h
          cases h
          obtain ⟨hq1, hq2⟩ := ih (n - utf8Len c) q hr
          constructor
          · rw [List.cons_append, hq1]
          · rw [byteLen_cons, hq2]
            omega
      · rw [if_neg hle] at h
        cases h

/-- Splitting a concatenation at the byte length of its first part
recovers the parts. -/
theorem splitAtByte_append (g f : List Char) :
    splitAtByte (byteLen g) (g ++ f) = some (g, f) := by
  induction g with
  | nil =>
    rw [byteLen_nil, List.nil_append, splitAtByte.eq_def, if_pos rfl]
  | cons c rest ih =>
    have h1 := one_le_utf8Len c
    rw [byteLen_cons, List.cons_append, splitAtByte,
      if_neg (by omega : ¬(utf8Len c + byteLen rest = 0))]
    rw [if_pos (by omega : utf8Len c ≤ utf8Len c + byteLen rest),
      show utf8Len c + byteLen rest - utf8Len c = byteLen rest by omega, ih]

/-- Setting the element right after a prefix. -/
theorem set_append_length (a t : List Feedback) (b x : Feedback) :
    (a ++ b :: t).set a.length x = a ++ x :: t := by
  induction a with
  | nil => rfl
  | cons y ys ih =>
    rw [List.cons_append, List.length_cons, List.set_cons_succ, ih, List.cons_append]

/-- The feedback-parsing loop on fully recognized symbols fills the
array with exactly the parsed feedback and reports valid. -/
theorem feedbackLoop_valid (l : List Char) (fs : List Feedback)
    (h : parseFeedback l = some fs) :
    ∀ pre : List Feedback,
      feedbackLoop (pre ++ List.replicate l.length Feedback.Gray) pre.length l =
        some (pre ++ fs, true) := by
  induction l generalizing fs with
  | nil =>
    rw [parseFeedback] at h
    cases h
    intro pre
    rw [feedbackLoop]
    simp
  | cons c rest ih =>
    rw [parseFeedback] at h
    match hc : Feedback.fromChar c with
    | none => rw [hc] at h; cases h
    | some f =>
      rw [hc] at h
      match hr : parseFeedback rest with
      | none => rw [hr] at h; cases h
      | some fs2 =>
        rw [hr] at h
        cases h
        intro pre
        rw [List.length_cons, List.replicate_succ, feedbackLoop, hc]
        dsimp only
        rw [if_pos (show pre.length <
            (pre ++ Feedback.Gray :: List.replicate rest.length Feedback.Gray).length by
          simp only [List.length_append, List.length_cons, List.length_replicate]
          omega)]
        rw [set_append_length pre (List.replicate rest.length Feedback.Gray)
          Feedback.Gray f]
        have hassoc : pre ++ f :: List.replicate rest.length Feedback.Gray =
            (pre ++ [f]) ++ List.replicate rest.length Feedback.Gray := by
          simp
        have hlen : pre.length + 1 = (pre ++ [f]).length := by
          simp
        rw [hassoc, hlen, ih fs2 hr (pre ++ [f])]
        simp

/-- The feedback-parsing loop stops with valid = false when some symbol
is unrecognized, provided the recognized prefix fits the array. -/
theorem feedbackLoop_invalid (l : List Char) (h : parseFeedback l = none) :
    ∀ (arr : List Feedback) (i : Nat), i + l.length ≤ arr.length →
      ∃ arr2, feedbackLoop arr i l = some (arr2, false) := by
  induction l with
  | nil =>
    rw [parseFeedback] at h
    cases h
  | cons c rest ih =>
    intro arr i hlen
    rw [feedbackLoop]
    match hc : Feedback.fromChar c with
    | none => exact ⟨arr, rfl⟩
    | some f =>
      have hr : parseFeedback rest = none := by
        rw [parseFeedback, hc] at h
        match hr2 : parseFeedback rest with
        | none => rfl
        | some fs2 => rw [hr2] at h; cases h
      dsimp only
      rw [if_pos (by simp only [List.length_cons] at hlen; omega)]
      exact ih hr (arr.set i f) (i + 1)
        (by rw [List.length_set]; simp only [List.length_cons] at hlen; omega)

/-- The entry loop applies exactly the valid entries, in order, and
counts them; invalid entries contribute nothing and do not abort.  The
hypothesis excludes the entries on which the program panics: a 10-byte
entry whose fifth byte falls inside a character. -/
theorem loadEntries_filter (entries : List (List Char)) (s : ConstraintState) (a : Nat)
    (hgr : s.green.length = 5)
    (hsafe : ∀ e ∈ entries, byteLen e = 10 → (splitAtByte 5 e).isSome) :
    ∃ s1, loadEntries entries s a =
        some (s1, a + (entries.filter isValidEntry).length) ∧
      loadEntries (entries.filter isValidEntry) s a =
        some (s1, a + (entries.filter isValidEntry).length) ∧
      s1.green.length = 5 := by
  induction entries generalizing s a with
  | nil => exact ⟨s, by simp [loadEntries], by simp [loadEntries], hgr⟩
  | cons e rest ih =>
    have hsafe2 : ∀ x ∈ rest, byteLen x = 10 → (splitAtByte 5 x).isSome :=
      fun x hx => hsafe x (List.mem_cons_of_mem _ hx)
    rw [loadEntries]
    by_cases hlen : byteLen e = 10
    · rw [if_pos hlen]
      obtain ⟨p, hp⟩ := Option.isSome_iff_exists.mp (hsafe e (by simp) hlen)
      rw [hp]
      dsimp only
      obtain ⟨happ, hbyte1⟩ := splitAtByte_spec e 5 p hp
      have hbyte2 : byteLen p.2 = 5 := by
        have := byteLen_append p.1 p.2
        rw [happ, hlen] at this
        omega
      have hplen2 : p.2.length ≤ 5 := by
        have := length_le_byteLen p.2
        omega
      match hparse : parseFeedback p.2 with
      | none =>
        obtain ⟨arr2, harr⟩ := feedbackLoop_invalid p.2 hparse
          (List.replicate 5 Feedback.Gray) 0 (by simp [hplen2])
        rw [harr]
        dsimp only
        have hvalid : isValidEntry e = false := by
          rw [isValidEntry, hp]
          simp [hparse]
        rw [List.filter_cons, hvalid]
        simp only [Bool.false_eq_true, if_false]
        exact ih s a hgr hsafe2
      | some fb =>
        have hascii : ∀ c ∈ p.2, c.toNat < 128 :=
          fun c hc => (fromChar_char_props c (parseFeedback_chars p.2 fb hparse c hc)).2.2
        have hplen5 : p.2.length = 5 := by
          have := byteLen_ascii p.2 hascii
          omega
        have hfill := feedbackLoop_valid p.2 fb hparse []
        simp only [List.nil_append, List.length_nil, hplen5] at hfill
        rw [hfill]
        dsimp only
        have hvalid : isValidEntry e = true := by
          rw [isValidEntry, hp]
          simp [hlen, hparse]
        have hfb5 : fb.length = 5 := by
          rw [parseFeedback_length p.2 fb hparse]
          exact hplen5
        have hg5 : p.1.length ≤ 5 := by
          have := length_le_byteLen p.1
          omega
        match hap : applyFeedback p.1 fb s with
        | none =>
          rw [applyFeedback_eq p.1 fb s (by omega) (by omega)] at hap
          cases hap
        | some s2 =>
          have hgr2 : s2.green.length = 5 := by
            rw [applyFeedback_green_length p.1 fb s s2 (by omega) (by omega) hap]
            exact hgr
          obtain ⟨s1, hA, hB, hC⟩ := ih s2 (a + 1) hgr2 hsafe2
          have hcount : a + (List.filter isValidEntry (e :: rest)).length =
              (a + 1) + (rest.filter isValidEntry).length := by
            rw [List.filter_cons, hvalid]
            simp only [if_true, List.length_cons]
            omega
          refine ⟨s1, ?_, ?_, hC⟩
          · dsimp only
            rw [hcount]
            exact hA
          · rw [hcount, List.filter_cons, hvalid]
            simp only [if_true]
            rw [loadEntries, if_pos hlen, hp]
            dsimp only
            rw [hfill]
            dsimp only
            rw [hap]
            dsimp only
            exact hB
    · rw [if_neg hlen]
      have hvalid : isValidEntry e = false := by
        rw [isValidEntry]
        simp [hlen]
      rw [List.filter_cons, hvalid]
      simp only [Bool.false_eq_true, if_false]
      exact ih s a hgr hsafe2

/-- Claim C7 counterexample: the original claim fails on a history
whose first entry has 10 bytes with its fifth byte inside the two-byte
character at position four: the program panics in split_at (modelled as
none), aborting the whole replay, so the later valid entry is never
applied and no budget accounting happens. -/
theorem loadState_panic_counterexample :
    isValidEntry (String.toList "cranyybggy") = true ∧
    loadState (String.toList "aaaaĀgybg,cranyybggy") emptyState 6 = none := by
  decide

/-- Claim C7 (amended): on every serialized history string in which no
10-byte entry breaks at byte five inside a character (there load_state
panics in split_at), each malformed entry — wrong byte length, or an
unrecognized symbol in the feedback half — is skipped individually
without aborting later entries, every valid entry is applied, and the
remaining budget is decremented by exactly the number of applied
entries, saturating at zero (Nat subtraction). -/
theorem loadState_skips_invalid (data : List Char) (s : ConstraintState) (r : Nat)
    (hgr : s.green.length = 5)
    (hsafe : ∀ e ∈ historyEntries data, byteLen e = 10 → (splitAtByte 5 e).isSome) :
    ∃ s1, loadEntries (historyEntries data) s 0 =
        some (s1, ((historyEntries data).filter isValidEntry).length) ∧
      loadEntries ((historyEntries data).filter isValidEntry) s 0 =
        some (s1, ((historyEntries data).filter isValidEntry).length) ∧
      loadState data s r =
        some (s1, r - ((historyEntries data).filter isValidEntry).length) := by
  obtain ⟨s1, hA, hB, _⟩ := loadEntries_filter (historyEntries data) s 0 hgr hsafe
  rw [Nat.zero_add] at hA hB
  refine ⟨s1, hA, hB, ?_⟩
  rw [loadState, hA]

/-- Witness for C7 on a serialized history holding one malformed-length
entry, one bad-symbol entry and two valid entries. -/
theorem loadState_skips_invalid_witness :
    ∃ s1,
      loadEntries (historyEntries (String.toList "cranyybggy, bad, slatedgggg,crateggbgy"))
          emptyState 0 =
        some (s1, ((historyEntries
          (String.toList "cranyybggy, bad, slatedgggg,crateggbgy")).filter
            isValidEntry).length) ∧
      loadEntries ((historyEntries
          (String.toList "cranyybggy, bad, slatedgggg,crateggbgy")).filter isValidEntry)
          emptyState 0 =
        some (s1, ((historyEntries
          (String.toList "cranyybggy, bad, slatedgggg,crateggbgy")).filter
            isValidEntry).length) ∧
      loadState (String.toList "cranyybggy, bad, slatedgggg,crateggbgy") emptyState 6 =
        some (s1, 6 - ((historyEntries
          (String.toList "cranyybggy, bad, slatedgggg,crateggbgy")).filter
            isValidEntry).length) :=
  loadState_skips_invalid (String.toList "cranyybggy, bad, slatedgggg,crateggbgy")
    emptyState 6 (by decide) (by decide)

theorem splitComma_ne_nil (l : List Char) : splitComma l ≠ [] := by
  induction l with
  | nil => simp [splitComma]
  | cons c rest ih =>
    rw [splitComma]
    match hr : splitComma rest with
    | [] => exact absurd hr ih
    | e :: es =>
      dsimp only
      by_cases hc : c = ','
      · rw [if_pos hc]
        simp
      · rw [if_neg hc]
        simp

theorem splitComma_append (e l : List Char) (h : ',' ∉ e) :
    splitComma (e ++ ',' :: l) = e :: splitComma l := by
  induction e with
  | nil =>
    rw [List.nil_append, splitComma]
    match hr : splitComma l with
    | [] => exact absurd hr (splitComma_ne_nil l)
    | x :: xs =>
      dsimp only
      rw [if_pos rfl]
  | cons c rest ih =>
    have hc : c ≠ ',' := fun hcc => h (by rw [hcc]; simp)
    have hrest : ',' ∉ rest := fun hmem => h (List.mem_cons_of_mem _ hmem)
    rw [List.cons_append, splitComma, ih hrest]
    dsimp only
    rw [if_neg hc]

theorem splitComma_nocomma (e : List Char) (h : ',' ∉ e) : splitComma e = [e] := by
  induction e with
  | nil => rfl
  | cons c rest ih =>
    have hc : c ≠ ',' := fun hcc => h (by rw [hcc]; simp)
    have hrest : ',' ∉ rest := fun hmem => h (List.mem_cons_of_mem _ hmem)
    rw [splitComma, ih hrest]
    dsimp only
    rw [if_neg hc]

/-- Splitting a comma-joined list of comma-free entries recovers them. -/
theorem splitComma_joinComma (entries : List (List Char))
    (h : ∀ e ∈ entries, ',' ∉ e) (hne : entries ≠ []) :
    splitComma (joinComma entries) = entries := by
  induction entries with
  | nil => exact absurd rfl hne
  | cons e rest ih =>
    match rest with
    | [] =>
      rw [joinComma]
      exact splitComma_nocomma e (h e (by simp))
    | e2 :: rest2 =>
      rw [joinComma, splitComma_append e (joinComma (e2 :: rest2)) (h e (by simp)),
        ih (fun x hx => h x (List.mem_cons_of_mem _ hx)) (List.cons_ne_nil e2 rest2)]
      intro hcon
      cases hcon

theorem dropWhile_ws_eq_self (l : List Char) (h : ∀ c ∈ l, isRustWhitespace c = false) :
    l.dropWhile isRustWhitespace = l := by
  match l with
  | [] => rfl
  | c :: rest =>
    rw [List.dropWhile_cons, if_neg (by simp [h c (by simp)])]

theorem trimChars_eq_self (l : List Char) (h : ∀ c ∈ l, isRustWhitespace c = false) :
    trimChars l = l := by
  rw [trimChars, dropWhile_ws_eq_self l h,
    dropWhile_ws_eq_self l.reverse (fun c hc => h c (List.mem_reverse.mp hc)),
    List.reverse_reverse]

/-- The entry loop on a list of well-formed guess-plus-feedback entries
(five single-byte guess characters, five recognized symbols) is the
direct fold of apply_feedback over the parsed pairs. -/
theorem loadEntries_all_valid (pairs : List (List Char × List Char))
    (s : ConstraintState) (a : Nat) (hgr : s.green.length = 5)
    (hp : ∀ p ∈ pairs, p.1.length = 5 ∧ (∀ c ∈ p.1, c.toNat < 128) ∧
      p.2.length = 5 ∧ (parseFeedback p.2).isSome) :
    ∃ s1, foldFeedback (pairs.map (fun p => (p.1, (parseFeedback p.2).getD []))) s =
        some s1 ∧
      loadEntries (pairs.map (fun p => p.1 ++ p.2)) s a = some (s1, a + pairs.length) ∧
      s1.green.length = 5 := by
  induction pairs generalizing s a with
  | nil => exact ⟨s, rfl, rfl, hgr⟩
  | cons q rest ih =>
    obtain ⟨hq1, hqa, hq2, hq3⟩ := hp q (by simp)
    obtain ⟨fb, hfb⟩ := Option.isSome_iff_exists.mp hq3
    have hfb5 : fb.length = 5 := by
      rw [parseFeedback_length q.2 fb hfb]
      exact hq2
    have hbyte1 : byteLen q.1 = 5 := by
      rw [byteLen_ascii q.1 hqa, hq1]
    have hbyte2 : byteLen q.2 = 5 := by
      rw [byteLen_ascii q.2 (fun c hc =>
        (fromChar_char_props c (parseFeedback_chars q.2 fb hfb c hc)).2.2), hq2]
    have hlen10 : byteLen (q.1 ++ q.2) = 10 := by
      rw [byteLen_append, hbyte1, hbyte2]
    have hsplit : splitAtByte 5 (q.1 ++ q.2) = some (q.1, q.2) := by
      rw [← hbyte1]
      exact splitAtByte_append q.1 q.2
    have hfill := feedbackLoop_valid q.2 fb hfb []
    simp only [List.nil_append, List.length_nil, hq2] at hfill
    match hap : applyFeedback q.1 fb s with
    | none =>
      rw [applyFeedback_eq q.1 fb s (by omega) (by omega)] at hap
      cases hap
    | some s2 =>
      have hgr2 : s2.green.length = 5 := by
        rw [applyFeedback_green_length q.1 fb s s2 (by omega) (by omega) hap]
        exact hgr
      obtain ⟨s1, hA, hB, hC⟩ := ih s2 (a + 1) hgr2
        (fun p hpm => hp p (List.mem_cons_of_mem _ hpm))
      refine ⟨s1, ?_, ?_, hC⟩
      · rw [List.map_cons, foldFeedback, hfb]
        dsimp only [Option.getD_some]
        rw [hap]
        exact hA
      · rw [List.map_cons, loadEntries, if_pos hlen10, hsplit]
        dsimp only
        rw [hfill]
        dsimp only
        rw [hap]
        dsimp only
        rw [List.length_cons,
          show a + (rest.length + 1) = (a + 1) + rest.length by omega]
        exact hB

/-- Claim C6 counterexample: an entry made of the 5-character guess
naïve and 5 recognized symbols serializes to 11 bytes (ï is two bytes),
so load_state skips it and returns the empty state with the budget
untouched, while folding apply_feedback over the same pair produces a
different state: the round-trip of the original claim fails. -/
theorem loadState_roundtrip_counterexample :
    parseFeedback (String.toList "gybgy") =
      some [Feedback.Green, Feedback.Yellow, Feedback.Gray, Feedback.Green,
        Feedback.Yellow] ∧
    foldFeedback [(String.toList "naïve",
        [Feedback.Green, Feedback.Yellow, Feedback.Gray, Feedback.Green,
          Feedback.Yellow])] emptyState =
      some ⟨[some 'n', none, none, some 'v', none], [('a', 1), ('e', 4)], ['ï'],
        [('n', 1), ('a', 1), ('v', 1), ('e', 1)]⟩ ∧
    loadState (joinComma [String.toList "naïve" ++ String.toList "gybgy"])
      emptyState 6 = some (emptyState, 6) ∧
    (⟨[some 'n', none, none, some 'v', none], [('a', 1), ('e', 4)], ['ï'],
      [('n', 1), ('a', 1), ('v', 1), ('e', 1)]⟩ : ConstraintState) ≠ emptyState := by
  decide

/-- Claim C6 (amended): replaying a serialized history of valid entries
— each a 5-character guess of single-byte (ASCII) characters, none a
comma or whitespace, concatenated with 5 recognized feedback symbols,
so that the entry survives the split and trim and has exactly 10 bytes
— through load_state reproduces exactly the constraint state obtained
by folding apply_feedback directly over the same (guess, feedback)
pairs in order, and decrements the budget by the number of entries. -/
theorem loadState_roundtrip (pairs : List (List Char × List Char)) (r : Nat)
    (hp : ∀ p ∈ pairs, p.1.length = 5 ∧
      (∀ c ∈ p.1, isRustWhitespace c = false ∧ c ≠ ',' ∧ c.toNat < 128) ∧
      p.2.length = 5 ∧ (parseFeedback p.2).isSome) :
    ∃ s1, foldFeedback (pairs.map (fun p => (p.1, (parseFeedback p.2).getD [])))
        emptyState = some s1 ∧
      loadState (joinComma (pairs.map (fun p => p.1 ++ p.2))) emptyState r =
        some (s1, r - pairs.length) := by
  have hentry : ∀ e ∈ pairs.map (fun p => p.1 ++ p.2),
      (',' ∉ e) ∧ (∀ c ∈ e, isRustWhitespace c = false) := by
    intro e he
    obtain ⟨p, hpm, hpe⟩ := List.mem_map.mp he
    obtain ⟨_, hg, _, hparse⟩ := hp p hpm
    have hsym : ∀ c ∈ p.2, isRustWhitespace c = false ∧ c ≠ ',' := by
      intro c hc
      have := fromChar_char_props c
        (parseFeedback_chars p.2 _ (Option.isSome_iff_exists.mp hparse).choose_spec c hc)
      exact ⟨this.1, this.2.1⟩
    constructor
    · intro hmem
      rw [← hpe] at hmem
      rcases List.mem_append.mp hmem with hmem | hmem
      · exact (hg (',') hmem).2.1 rfl
      · exact (hsym (',') hmem).2 rfl
    · intro c hc
      rw [← hpe] at hc
      rcases List.mem_append.mp hc with hc | hc
      · exact (hg c hc).1
      · exact (hsym c hc).1
  cases pairs with
  | nil => exact ⟨emptyState, rfl, rfl⟩
  | cons q rest =>
    have hsplit : historyEntries (joinComma ((q :: rest).map (fun p => p.1 ++ p.2))) =
        (q :: rest).map (fun p => p.1 ++ p.2) := by
      rw [historyEntries, splitComma_joinComma _ (fun e he => (hentry e he).1)
        (by simp)]
      rw [List.map_congr_left (fun e he => trimChars_eq_self e (hentry e he).2)]
      exact List.map_id' _
    obtain ⟨s1, hA, hB, _⟩ := loadEntries_all_valid (q :: rest) emptyState 0 (by decide)
      (fun p hpm => ⟨(hp p hpm).1, fun c hc => ((hp p hpm).2.1 c hc).2.2,
        (hp p hpm).2.2.1, (hp p hpm).2.2.2⟩)
    refine ⟨s1, hA, ?_⟩
    rw [Nat.zero_add] at hB
    rw [loadState, hsplit, hB]

/-- Witness for C6 on a two-round history (crane then slate). -/
theorem loadState_roundtrip_witness :
    ∃ s1, foldFeedback ([(String.toList "crane", String.toList "ybbgy"),
        (String.toList "slate", String.toList "bGYgb")].map
          (fun p => (p.1, (parseFeedback p.2).getD []))) emptyState = some s1 ∧
      loadState (joinComma ([(String.toList "crane", String.toList "ybbgy"),
          (String.toList "slate", String.toList "bGYgb")].map
            (fun p => p.1 ++ p.2))) emptyState 6 = some (s1, 6 - 2) :=
  loadState_roundtrip
    [(String.toList "crane", String.toList "ybbgy"),
      (String.toList "slate", String.toList "bGYgb")] 6 (by decide)

/-! ## The min_counts invariant -/

theorem mem_alInsert (m : List (Char × Nat)) (k : Char) (v : Nat) (p : Char × Nat)
    (h : p ∈ alInsert m k v) : p ∈ m ∨ p = (k, v) := by
  induction m with
  | nil =>
    rw [alInsert] at h
    rcases List.mem_cons.mp h with h | h
    · exact Or.inr h
    · cases h
  | cons q rest ih =>
    obtain ⟨k2, w⟩ := q
    rw [alInsert] at h
    by_cases hk : k2 = k
    · rw [if_pos hk] at h
      rcases List.mem_cons.mp h with h | h
      · exact Or.inr h
      · exact Or.inl (List.mem_cons_of_mem _ h)
    · rw [if_neg hk] at h
      rcases List.mem_cons.mp h with h | h
      · exact Or.inl (by rw [h]; simp)
      · rcases ih h with h2 | h2
        · exact Or.inl (List.mem_cons_of_mem _ h2)
        · exact Or.inr h2

theorem alFind_alInsert_isSome (m : List (Char × Nat)) (k : Char) (v : Nat) (c : Char) :
    (alFind (alInsert m k v) c).isSome ↔ c = k ∨ (alFind m c).isSome := by
  by_cases hk : c = k
  · rw [hk, alFind_alInsert_self]
    simp
  · rw [alFind_alInsert_ne m k c v hk]
    simp [hk]

theorem rcBump_values (rc : List (Char × Nat)) (c : Char)
    (h : ∀ p ∈ rc, 1 ≤ p.2) : ∀ p ∈ rcBump rc c, 1 ≤ p.2 := by
  intro p hp
  rcases mem_alInsert rc c _ p hp with h2 | h2
  · exact h p h2
  · rw [h2]
    omega

theorem rcUpd_values (g : List Char) (i : Nat) (fb : List Feedback)
    (rc : List (Char × Nat)) (h : ∀ p ∈ rc, 1 ≤ p.2) :
    ∀ p ∈ rcUpd rc g i fb, 1 ≤ p.2 := by
  induction g generalizing rc i with
  | nil => exact h
  | cons g0 gs ih =>
    rw [rcUpd]
    split
    · exact ih (i + 1) _ (rcBump_values rc g0 h)
    · exact ih (i + 1) _ h

theorem ygCount_nil_fb (c : Char) (gs : List Char) : ygCount c gs [] = 0 := by
  match gs with
  | [] => rfl
  | g :: rest => rfl

/-- A letter has a round tally entry exactly when some scanned position
holds it with a Green or Yellow mark. -/
theorem rcUpd_isSome (g : List Char) (i : Nat) (fb : List Feedback)
    (rc : List (Char × Nat)) (c : Char) :
    (alFind (rcUpd rc g i fb) c).isSome ↔
      (alFind rc c).isSome ∨ 0 < ygCount c g (fb.drop i) := by
  induction g generalizing rc i with
  | nil =>
    rw [rcUpd]
    have : ygCount c [] (fb.drop i) = 0 := by
      match fb.drop i with
      | [] => rfl
      | f :: fs => rfl
    rw [this]
    simp
  | cons g0 gs ih =>
    rw [rcUpd]
    match hfi : fb[i]? with
    | none =>
      have hdrop : fb.drop i = [] := by
        rw [List.drop_eq_nil_iff]
        by_contra hcon
        push_neg at hcon
        have : fb[i]? = some fb[i] := List.getElem?_eq_getElem hcon
        rw [hfi] at this
        cases this
      have hdrop2 : fb.drop (i + 1) = [] := by
        rw [List.drop_eq_nil_iff] at hdrop ⊢
        omega
      rw [if_neg (show ¬((none : Option Feedback) = some Feedback.Green ∨
        (none : Option Feedback) = some Feedback.Yellow) by
          intro hcon; rcases hcon with hcon | hcon <;> cases hcon)]
      rw [ih (i + 1) rc, hdrop, hdrop2, ygCount_nil_fb c gs, ygCount_nil_fb c (g0 :: gs)]
    | some f =>
      have hi : i < fb.length := by
        by_contra hcon
        push_neg at hcon
        rw [List.getElem?_eq_none hcon] at hfi
        cases hfi
      have hfb : fb[i] = f := by
        have := List.getElem?_eq_getElem hi
        rw [hfi] at this
        exact (Option.some.injEq _ _).mp this.symm
      have hdrop : fb.drop i = f :: fb.drop (i + 1) := by
        rw [List.drop_eq_getElem_cons hi, hfb]
      rw [hdrop]
      cases f with
      | Green =>
        rw [if_pos (Or.inl rfl)]
        rw [ih (i + 1) (rcBump rc g0), rcBump, alFind_alInsert_isSome]
        rw [ygCount]
        by_cases hg : g0 = c
        · constructor
          · intro hyp
            right
            rw [if_pos ⟨hg, by simp⟩]
            omega
          · intro hyp
            left
            left
            exact hg.symm
        · rw [if_neg (fun hcon => hg hcon.1)]
          constructor
          · intro hyp
            rcases hyp with (hyp | hyp) | hyp
            · exact absurd hyp.symm hg
            · exact Or.inl hyp
            · exact Or.inr (by omega)
          · intro hyp
            rcases hyp with hyp | hyp
            · exact Or.inl (Or.inr hyp)
            · exact Or.inr (by omega)
      | Yellow =>
        rw [if_pos (Or.inr rfl)]
        rw [ih (i + 1) (rcBump rc g0), rcBump, alFind_alInsert_isSome]
        rw [ygCount]
        by_cases hg : g0 = c
        · constructor
          · intro hyp
            right
            rw [if_pos ⟨hg, by simp⟩]
            omega
          · intro hyp
            left
            left
            exact hg.symm
        · rw [if_neg (fun hcon => hg hcon.1)]
          constructor
          · intro hyp
            rcases hyp with (hyp | hyp) | hyp
            · exact absurd hyp.symm hg
            · exact Or.inl hyp
            · exact Or.inr (by omega)
          · intro hyp
            rcases hyp with hyp | hyp
            · exact Or.inl (Or.inr hyp)
            · exact Or.inr (by omega)
      | Gray =>
        rw [if_neg (show ¬((some Feedback.Gray = some Feedback.Green) ∨
          (some Feedback.Gray = some Feedback.Yellow)) by
            intro hcon; rcases hcon with hcon | hcon <;> cases hcon)]
        rw [ih (i + 1) rc, ygCount,
          if_neg (show ¬(g0 = c ∧ Feedback.Gray ≠ Feedback.Gray) by
            intro hcon; exact hcon.2 rfl), Nat.zero_add]

theorem mergeMinCounts_values (rc m : List (Char × Nat))
    (hm : ∀ p ∈ m, 1 ≤ p.2) (hrc : ∀ p ∈ rc, 1 ≤ p.2) :
    ∀ p ∈ mergeMinCounts m rc, 1 ≤ p.2 := by
  induction rc generalizing m with
  | nil => exact hm
  | cons q rest ih =>
    rw [mergeMinCounts, List.foldl_cons]
    refine ih (mergeOne m q.1 q.2) ?_ (fun p hp => hrc p (List.mem_cons_of_mem _ hp))
    intro p hp
    rcases mem_alInsert m q.1 _ p (by rw [mergeOne] at hp; exact hp) with h2 | h2
    · exact hm p h2
    · rw [h2]
      have := hrc q (by simp)
      simp only
      omega

theorem mergeMinCounts_isSome (rc m : List (Char × Nat)) (c : Char) :
    (alFind (mergeMinCounts m rc) c).isSome ↔
      (alFind m c).isSome ∨ (alFind rc c).isSome := by
  induction rc generalizing m with
  | nil =>
    rw [mergeMinCounts]
    simp [alFind]
  | cons q rest ih =>
    rw [mergeMinCounts, List.foldl_cons]
    have hq : (alFind (q :: rest) c).isSome ↔ q.1 = c ∨ (alFind rest c).isSome := by
      rw [show alFind (q :: rest) c =
        if q.1 = c then some q.2 else alFind rest c from rfl]
      by_cases hk : q.1 = c
      · rw [if_pos hk]
        simp [hk]
      · rw [if_neg hk]
        simp [hk]
    rw [hq, ← mergeMinCounts]
    rw [ih (mergeOne m q.1 q.2), mergeOne, alFind_alInsert_isSome]
    constructor
    · intro hyp
      rcases hyp with (hyp | hyp) | hyp
      · exact Or.inr (Or.inl hyp.symm)
      · exact Or.inl hyp
      · exact Or.inr (Or.inr hyp)
    · intro hyp
      rcases hyp with hyp | hyp | hyp
      · exact Or.inl (Or.inr hyp)
      · exact Or.inl (Or.inl hyp.symm)
      · exact Or.inr hyp

/-- The fold of apply_feedback only creates min_counts entries for
letters marked Green or Yellow, with values at least 1. -/
theorem foldFeedback_minCounts (pairs : List (Word × List Feedback))
    (s0 s : ConstraintState) (hgr : s0.green.length = 5)
    (h5 : ∀ p ∈ pairs, p.1.length = 5 ∧ p.2.length = 5)
    (hs : foldFeedback pairs s0 = some s)
    (hv0 : ∀ p ∈ s0.minCounts, 1 ≤ p.2) :
    (∀ p ∈ s.minCounts, 1 ≤ p.2) ∧
    (∀ c : Char, (alFind s.minCounts c).isSome ↔
      ((alFind s0.minCounts c).isSome ∨ ∃ p ∈ pairs, 0 < ygCount c p.1 p.2)) := by
  induction pairs generalizing s0 with
  | nil =>
    rw [foldFeedback] at hs
    cases hs
    exact ⟨hv0, fun c => by simp⟩
  | cons q rest ih =>
    obtain ⟨hq1, hq2⟩ := h5 q (by simp)
    rw [foldFeedback,
      applyFeedback_eq q.1 q.2 s0 (by omega) (by omega)] at hs
    dsimp only at hs
    have hgr1 : (greenUpd s0.green q.1 0 q.2).length = 5 := by
      rw [greenUpd_length]
      exact hgr
    have hv1 : ∀ p ∈ mergeMinCounts s0.minCounts (rcUpd [] q.1 0 q.2), 1 ≤ p.2 :=
      mergeMinCounts_values _ _ hv0
        (rcUpd_values q.1 0 q.2 [] (fun p hp => by cases hp))
    obtain ⟨hA, hB⟩ := ih _ hgr1 (fun p hp => h5 p (List.mem_cons_of_mem _ hp)) hs hv1
    refine ⟨hA, ?_⟩
    intro c
    rw [hB c]
    dsimp only
    rw [mergeMinCounts_isSome, rcUpd_isSome, List.drop_zero]
    have hrcnil : (alFind [] c).isSome = false := rfl
    constructor
    · intro hyp
      rcases hyp with (hyp | hyp | hyp) | hyp
      · exact Or.inl hyp
      · rw [hrcnil] at hyp
        cases hyp
      · exact Or.inr ⟨q, by simp, hyp⟩
      · obtain ⟨p, hp1, hp2⟩ := hyp
        exact Or.inr ⟨p, List.mem_cons_of_mem _ hp1, hp2⟩
    · intro hyp
      rcases hyp with hyp | hyp
      · exact Or.inl (Or.inl hyp)
      · obtain ⟨p, hp1, hp2⟩ := hyp
        rcases List.mem_cons.mp hp1 with hp1 | hp1
        · exact Or.inl (Or.inr (Or.inr (by rw [← hp1]; exact hp2)))
        · exact Or.inr ⟨p, hp1, hp2⟩

/-- Claim C10: in every constraint state reachable from the empty state
by applying feedback rounds, every min_counts value is at least 1 and a
letter has a min_counts entry exactly when some applied round marked it
Green or Yellow; consequently the full gray-letter ban of the filter
falls exactly on gray letters never marked Green or Yellow. -/
theorem minCounts_invariant (pairs : List (Word × List Feedback))
    (h5 : ∀ p ∈ pairs, p.1.length = 5 ∧ p.2.length = 5)
    (s : ConstraintState) (hs : foldFeedback pairs emptyState = some s) :
    (∀ p ∈ s.minCounts, 1 ≤ p.2) ∧
    (∀ c : Char, (alFind s.minCounts c).isSome ↔
      ∃ p ∈ pairs, 0 < ygCount c p.1 p.2) ∧
    (∀ c ∈ s.gray, (∀ p ∈ pairs, ygCount c p.1 p.2 = 0) →
      ∀ w : Word, checkGrays w s.gray s.minCounts = true → c ∉ w) := by
  obtain ⟨hA, hB⟩ := foldFeedback_minCounts pairs emptyState s (by decide) h5 hs
    (fun p hp => by cases hp)
  have hB2 : ∀ c : Char, (alFind s.minCounts c).isSome ↔
      ∃ p ∈ pairs, 0 < ygCount c p.1 p.2 := by
    intro c
    rw [hB c]
    have : (alFind emptyState.minCounts c).isSome = false := rfl
    rw [this]
    simp
  refine ⟨hA, hB2, ?_⟩
  intro c hc hnever w hgrays
  have hnone : alFind s.minCounts c = none := by
    rw [← Option.not_isSome_iff_eq_none, hB2 c]
    intro hcon
    obtain ⟨p, hp1, hp2⟩ := hcon
    rw [hnever p hp1] at hp2
    cases hp2
  rw [checkGrays_eq] at hgrays
  exact of_decide_eq_true hgrays c hc hnone

/-- Witness for C10 after one crane round. -/
theorem minCounts_invariant_witness :
    ∃ s : ConstraintState,
      foldFeedback [(String.toList "crane",
        [Feedback.Yellow, Feedback.Green, Feedback.Green, Feedback.Gray,
          Feedback.Green])] emptyState = some s ∧
      ((∀ p ∈ s.minCounts, 1 ≤ p.2) ∧
      (∀ c : Char, (alFind s.minCounts c).isSome ↔
        ∃ p ∈ [(String.toList "crane",
          [Feedback.Yellow, Feedback.Green, Feedback.Green, Feedback.Gray,
            Feedback.Green])], 0 < ygCount c p.1 p.2) ∧
      (∀ c ∈ s.gray, (∀ p ∈ [(String.toList "crane",
          [Feedback.Yellow, Feedback.Green, Feedback.Green, Feedback.Gray,
            Feedback.Green])], ygCount c p.1 p.2 = 0) →
        ∀ w : Word, checkGrays w s.gray s.minCounts = true → c ∉ w)) := by
  refine ⟨⟨[none, some 'r', some 'a', none, some 'e'], [('c', 0)], ['n'],
    [('c', 1), ('r', 1), ('a', 1), ('e', 1)]⟩, by decide, ?_⟩
  exact minCounts_invariant
    [(String.toList "crane",
      [Feedback.Yellow, Feedback.Green, Feedback.Green, Feedback.Gray, Feedback.Green])]
    (by decide) _ (by decide)

end WordleSolvRS
